import Mathlib

/-!
Verification of `bugs/bugs2json.py`, a heterogeneous bug-tracker URL
normalization pipeline.  The Python source is shallowly embedded below:
pure string/date/regex logic is translated function-for-function; network
fetches (HTTP GET, GitHub API, README download) are external capabilities
and appear as explicit parameters carrying the fetched data.  Strings are
modelled over their character lists with ASCII case semantics, matching the
ASCII inputs the script manipulates.
-/

namespace Bugs2Json

/-! ## Python character and string primitives (ASCII model) -/

/-- Python `str.isupper` for a single ASCII character. -/
def pyIsUpperC (c : Char) : Bool := 65 ≤ c.toNat ∧ c.toNat ≤ 90

/-- Python `str.islower` for a single ASCII character. -/
def pyIsLowerC (c : Char) : Bool := 97 ≤ c.toNat ∧ c.toNat ≤ 122

/-- Python `str.isalpha` for a single ASCII character. -/
def pyIsAlphaC (c : Char) : Bool := pyIsUpperC c || pyIsLowerC c

/-- Python `str.isdigit` for a single ASCII character. -/
def pyIsDigitC (c : Char) : Bool := 48 ≤ c.toNat ∧ c.toNat ≤ 57

/-- Python `str.isspace` / regex `\s` for an ASCII character. -/
def pyIsSpaceC (c : Char) : Bool :=
  c = ' ' || c = '\t' || c = '\n' || c = '\x0d' || c = '\x0b' || c = '\x0c'

/-- Python `str.upper` on one ASCII character. -/
def pyUpperC (c : Char) : Char :=
  if pyIsLowerC c then Char.ofNat (c.toNat - 32) else c

/-- Python `str.lower` on one ASCII character. -/
def pyLowerC (c : Char) : Char :=
  if pyIsUpperC c then Char.ofNat (c.toNat + 32) else c

/-- Regex word character `\w` (ASCII): letters, digits, underscore. -/
def isWordC (c : Char) : Bool := pyIsAlphaC c || pyIsDigitC c || c = '_'

/-- Python `str.lower` on a whole string. -/
def pyLower (s : String) : String := ⟨s.data.map pyLowerC⟩

/-- Python `str.upper` on a whole string. -/
def pyUpper (s : String) : String := ⟨s.data.map pyUpperC⟩

/-- Does the string contain an uppercase letter (`any(c.isupper() for c in s)`). -/
def strHasUpper (s : String) : Bool := s.data.any pyIsUpperC

/-- Python `str.capitalize` on a character list: first character uppercased,
the remainder lowercased. -/
def pyCapList : List Char → List Char
  | [] => []
  | c :: cs => pyUpperC c :: cs.map pyLowerC

/-- Python `str.capitalize`. -/
def pyCapitalize (s : String) : String := ⟨pyCapList s.data⟩

/-- `s[0].upper() + s[1:]`: uppercase the first character, keep the rest verbatim. -/
def capFirst (s : String) : String :=
  match s.data with
  | [] => s
  | c :: cs => ⟨pyUpperC c :: cs⟩

/-- Python `str.strip()` (whitespace at both ends). -/
def pyStrip (s : String) : String :=
  ⟨((s.data.dropWhile pyIsSpaceC).reverse.dropWhile pyIsSpaceC).reverse⟩

/-- Python `str.strip(chars)` generalization used for `path.strip("/")`. -/
def pyStripP (p : Char → Bool) (s : String) : String :=
  ⟨((s.data.dropWhile p).reverse.dropWhile p).reverse⟩

/-- Python `str.isupper` on a string: at least one cased character and every
cased character uppercase (ASCII: cased = letter). -/
def pyIsUpperStr (s : String) : Bool :=
  s.data.any pyIsAlphaC && s.data.all (fun c => !pyIsAlphaC c || pyIsUpperC c)

/-- Python `str.islower` on a string. -/
def pyIsLowerStr (s : String) : Bool :=
  s.data.any pyIsAlphaC && s.data.all (fun c => !pyIsAlphaC c || pyIsLowerC c)

/-- Python `str.isalpha` on a string: nonempty and all letters. -/
def pyIsAlphaStr (s : String) : Bool := !s.data.isEmpty && s.data.all pyIsAlphaC

/-- Case-insensitive prefix test: does `w` (a fixed ASCII word) start `s`
when compared caselessly, as in a regex literal under `re.IGNORECASE`? -/
def matchesCI : List Char → List Char → Bool
  | [], _ => true
  | _ :: _, [] => false
  | w :: ws, c :: cs => pyLowerC w = pyLowerC c && matchesCI ws cs

/-- Split a character list at every character satisfying `p`, keeping empty
pieces, as Python `re.split` on a character class (or `str.split(sep)` for a
one-character separator via `p := (· = sep)`). -/
def splitP (p : Char → Bool) : List Char → List (List Char)
  | [] => [[]]
  | c :: cs =>
    if p c then [] :: splitP p cs
    else
      match splitP p cs with
      | piece :: rest => (c :: piece) :: rest
      | [] => [[c]]

/-- Python `sep.join(pieces)` for a one-character separator. -/
def joinSep (c : Char) : List (List Char) → List Char
  | [] => []
  | [x] => x
  | x :: y :: rest => x ++ c :: joinSep c (y :: rest)

/-- Lexicographic strict comparison of character lists by code point, the
order Python uses to compare strings. -/
def lexLt : List Char → List Char → Bool
  | _, [] => false
  | [], _ :: _ => true
  | a :: as_, b :: bs =>
    if a.toNat < b.toNat then true
    else if b.toNat < a.toNat then false
    else lexLt as_ bs

/-- Lexicographic (non-strict) comparison of character lists by code point. -/
def lexLe : List Char → List Char → Bool
  | [], _ => true
  | _ :: _, [] => false
  | a :: as_, b :: bs =>
    if a.toNat < b.toNat then true
    else if b.toNat < a.toNat then false
    else lexLe as_ bs

/-- Python `min` over a list of strings: the first minimal element. -/
def pyMinStr : List String → String
  | [] => ""
  | x :: xs => xs.foldl (fun cur y => if lexLt y.data cur.data then y else cur) x

/-- First index at which `pat` occurs as a contiguous sublist of the input. -/
def subIdx (pat : List Char) : List Char → Option Nat
  | [] => if pat.isEmpty then some 0 else none
  | c :: rest =>
    if pat.isPrefixOf (c :: rest) then some 0
    else (subIdx pat rest).map (· + 1)

/-- `os.path.basename`: everything after the last slash. -/
def os_basename (url : String) : String :=
  ⟨(url.data.reverse.takeWhile (fun c => c ≠ '/')).reverse⟩

/-- The numeric value of an ASCII digit. -/
def digVal (c : Char) : Nat := c.toNat - 48

/-- Read a digit list as a decimal number. -/
def readDigits (cs : List Char) : Nat := cs.foldl (fun a c => a * 10 + digVal c) 0

/-! ## Date arithmetic (model of `datetime.date` validity and formatting) -/

/-- Gregorian leap year, as `calendar.isleap` / `datetime`. -/
def isLeapYear (y : Nat) : Bool := y % 4 = 0 && (y % 100 ≠ 0 || y % 400 = 0)

/-- Days in a month, as `datetime`. -/
def daysInMonth (y m : Nat) : Nat :=
  if m = 2 then (if isLeapYear y then 29 else 28)
  else if m = 4 || m = 6 || m = 9 || m = 11 then 30
  else 31

/-- Validity of a `datetime.date(y, m, d)` construction (year 1..9999). -/
def validYMD (y m d : Nat) : Bool :=
  1 ≤ y && y ≤ 9999 && 1 ≤ m && m ≤ 12 && 1 ≤ d && d ≤ daysInMonth y m

/-- Zero-pad a number to two digits. -/
def pad2 (n : Nat) : String := if n < 10 then "0" ++ toString n else toString n

/-- Zero-pad a year to four digits. -/
def pad4 (n : Nat) : String :=
  if n < 10 then "000" ++ toString n
  else if n < 100 then "00" ++ toString n
  else if n < 1000 then "0" ++ toString n
  else toString n

/-- `date(y, m, d).isoformat()`. -/
def isoOfYMD (y m d : Nat) : String := pad4 y ++ "-" ++ pad2 m ++ "-" ++ pad2 d

/-- Take exactly `n` ASCII digits from the front, returning their value. -/
def takeDigitsN (n : Nat) (cs : List Char) : Option (Nat × List Char) :=
  let pre := cs.take n
  if pre.length = n && pre.all pyIsDigitC then some (readDigits pre, cs.drop n)
  else none

/-- Expect a specific character at the front. -/
def expectC (c : Char) : List Char → Option (List Char)
  | [] => none
  | x :: xs => if x = c then some xs else none

/-! ## `datetime.fromisoformat` (CPython 3.11, restricted to the extended
ISO-8601 shapes: `YYYY-MM-DD[<sep>HH[:MM[:SS[.f{1,6}]]][±HH:MM[:SS]]]`). -/

/-- Parse the optional fractional part `.d{1,6}`. -/
def parseFrac : List Char → Option (List Char)
  | '.' :: cs =>
    let ds := cs.takeWhile pyIsDigitC
    if 1 ≤ ds.length && ds.length ≤ 6 then some (cs.drop ds.length) else none
  | _ => none

/-- Parse a UTC-offset suffix `±HH:MM[:SS[.f]]`; returns the remainder.
`timezone` construction bounds the offset strictly below 24 hours. -/
def parseOffset (cs : List Char) : Option (List Char) :=
  match cs with
  | c :: rest =>
    if c = '+' || c = '-' then do
      let (oh, r1) ← takeDigitsN 2 rest
      let r2 ← expectC ':' r1
      let (om, r3) ← takeDigitsN 2 r2
      let (os_, r4) :=
        match (do
          let r ← expectC ':' r3
          let (v, r5) ← takeDigitsN 2 r
          pure (v, (parseFrac r5).getD r5) : Option (Nat × List Char)) with
        | some (v, r) => (v, r)
        | none => (0, r3)
      if oh ≤ 23 && om ≤ 59 && os_ ≤ 59 then some r4 else none
    else none
  | [] => none

/-- Parse the time-of-day part `HH[:MM[:SS[.f]]]` after the separator. -/
def parseTimePart (cs : List Char) : Option (Nat × Nat × Nat × List Char) := do
  let (h, r1) ← takeDigitsN 2 cs
  match expectC ':' r1 with
  | none => pure (h, 0, 0, r1)
  | some r2 => do
    let (mi, r3) ← takeDigitsN 2 r2
    match expectC ':' r3 with
    | none => pure (h, mi, 0, r3)
    | some r4 => do
      let (s, r5) ← takeDigitsN 2 r4
      pure (h, mi, s, (parseFrac r5).getD r5)

/-- `datetime.fromisoformat(s).date()`: the calendar date on success. -/
def pyFromIso (cs : List Char) : Option (Nat × Nat × Nat) := do
  let (y, r1) ← takeDigitsN 4 cs
  let r2 ← expectC '-' r1
  let (mo, r3) ← takeDigitsN 2 r2
  let r4 ← expectC '-' r3
  let (d, r5) ← takeDigitsN 2 r4
  let dateOK := validYMD y mo d
  match r5 with
  | [] => if dateOK then some (y, mo, d) else none
  | _ :: rest => do
    let (h, mi, s, r6) ← parseTimePart rest
    let r7 :=
      match parseOffset r6 with
      | some r => some r
      | none => if r6.isEmpty then some r6 else none
    match r7 with
    | some [] =>
      if dateOK && h ≤ 23 && mi ≤ 59 && s ≤ 59 then some (y, mo, d) else none
    | _ => none

/-! ## `datetime.strptime` (the `_strptime` regex semantics for the nine
format strings the source uses).  Each directive is modelled by the exact
regex `_strptime.TimeRE` compiles for it; the whole pattern is matched
case-insensitively, format whitespace matches `\s+`, and after the first
(backtracking-preferred) pattern match the entire input must be consumed. -/

/-- A compiled `strptime` format directive. -/
inductive Dir
  | lit (c : Char)
  | ws
  | wd
  | mon
  | monNum
  | day
  | year
  | h24
  | h12
  | minu
  | sec
  | ampm
  | zoff
  | zname
deriving Repr, DecidableEq

/-- Parser state accumulated by the directives: year, month, day as in
`time.struct_time` defaults (1900, 1, 1), the parsed seconds (which
`datetime` bounds at 59), and whether a parsed UTC offset was out of the
range `timezone` accepts. -/
structure PSt where
  y : Nat := 1900
  mo : Nat := 1
  d : Nat := 1
  se : Nat := 0
  offBad : Bool := false
deriving Repr, DecidableEq

/-- Weekday abbreviations of the C locale, lowercased. -/
def wdNames : List String := ["mon", "tue", "wed", "thu", "fri", "sat", "sun"]

/-- Month abbreviations of the C locale, lowercased (month = index + 1). -/
def monNames : List String :=
  ["jan", "feb", "mar", "apr", "may", "jun", "jul", "aug", "sep", "oct", "nov", "dec"]

/-- Candidates for a two-digit-or-one-digit numeric directive, in the
preference order of the regex alternation `_strptime` builds.  Each
alternative is given as (first-digit test, second-digit test, use-two).
Returns the possible (value, rest) splits, most preferred first. -/
def numAlt (alts : List ((Char → Bool) × (Char → Bool))) (oneDigit : Char → Bool)
    (cs : List Char) : List (Nat × List Char) :=
  let two :=
    match cs with
    | c1 :: c2 :: r =>
      alts.filterMap (fun (p1, p2) =>
        if p1 c1 && p2 c2 then some (digVal c1 * 10 + digVal c2, r) else none)
    | _ => []
  let one :=
    match cs with
    | c1 :: r => if oneDigit c1 then [(digVal c1, r)] else []
    | [] => []
  two ++ one

/-- Character range test. -/
def inRangeC (lo hi : Char) (c : Char) : Bool := lo.toNat ≤ c.toNat && c.toNat ≤ hi.toNat

/-- Match a lowercased name list case-insensitively; value = index. -/
def nameAlt (names : List String) (cs : List Char) : List (Nat × List Char) :=
  (names.enum.filterMap (fun (i, n) =>
    if matchesCI n.data cs then some (i, cs.drop n.length) else none))

/-- The `%z` regex `[+-]\d\d:?\d\d(:\d\d(\.\d{1,6})?)?|(?-i:Z)`, returning
(offset-seconds-too-large?, rest) splits in preference order. -/
def zoffAlt (cs : List Char) : List (Bool × List Char) :=
  let main :=
    match cs with
    | sgn :: c1 :: rest0 =>
      if (sgn = '+' || sgn = '-') && pyIsDigitC c1 then
        match rest0 with
        | c2 :: rest1 =>
          if pyIsDigitC c2 then
            -- optional colon, greedy: the with-colon split first
            let afterHH := fun (r : List Char) =>
              match r with
              | m1 :: m2 :: r2 =>
                if pyIsDigitC m1 && pyIsDigitC m2 then
                  let hh := digVal c1 * 10 + digVal c2
                  let mm := digVal m1 * 10 + digVal m2
                  let base := hh * 3600 + mm * 60
                  -- optional seconds (with optional fraction), greedy
                  let withSec :=
                    match r2 with
                    | ':' :: s1 :: s2 :: r3 =>
                      if pyIsDigitC s1 && pyIsDigitC s2 then
                        let ss := digVal s1 * 10 + digVal s2
                        let fr :=
                          match parseFrac r3 with
                          | some r4 => [(decide (86400 ≤ base + ss), r4)]
                          | none => []
                        fr ++ [(decide (86400 ≤ base + ss), r3)]
                      else []
                    | _ => []
                  withSec ++ [(decide (86400 ≤ base), r2)]
                else []
              | _ => []
            let withColon :=
              match rest1 with
              | ':' :: r => afterHH r
              | _ => []
            withColon ++ (if withColon.isEmpty then afterHH rest1 else [])
          else []
        | _ => []
      else []
    | _ => []
  let zAlt :=
    match cs with
    | 'Z' :: r => [(false, r)]
    | _ => []
  main ++ zAlt

/-- One directive step: all (state, rest) splits in regex preference order. -/
def stepDir (d : Dir) (st : PSt) (cs : List Char) : List (PSt × List Char) :=
  match d with
  | .lit c =>
    match cs with
    | x :: r => if pyLowerC x = pyLowerC c then [(st, r)] else []
    | [] => []
  | .ws =>
    let k := (cs.takeWhile pyIsSpaceC).length
    (List.range k).map (fun i => (st, cs.drop (k - i)))
  | .wd => (nameAlt wdNames cs).map (fun (_, r) => (st, r))
  | .mon => (nameAlt monNames cs).map (fun (i, r) => ({ st with mo := i + 1 }, r))
  | .monNum =>
    -- 1[0-2]|0[1-9]|[1-9]
    (numAlt [((· = '1'), inRangeC '0' '2'), ((· = '0'), inRangeC '1' '9')]
      (inRangeC '1' '9') cs).map (fun (v, r) => ({ st with mo := v }, r))
  | .day =>
    -- 3[01]|[12]\d|0[1-9]|[1-9]
    (numAlt [((· = '3'), inRangeC '0' '1'), (inRangeC '1' '2', pyIsDigitC),
      ((· = '0'), inRangeC '1' '9')] (inRangeC '1' '9') cs).map
      (fun (v, r) => ({ st with d := v }, r))
  | .year =>
    match takeDigitsN 4 cs with
    | some (v, r) => [({ st with y := v }, r)]
    | none => []
  | .h24 =>
    -- 2[0-3]|[0-1]\d|\d
    (numAlt [((· = '2'), inRangeC '0' '3'), (inRangeC '0' '1', pyIsDigitC)]
      pyIsDigitC cs).map (fun (_, r) => (st, r))
  | .h12 =>
    -- 1[0-2]|0[1-9]|[1-9]
    (numAlt [((· = '1'), inRangeC '0' '2'), ((· = '0'), inRangeC '1' '9')]
      (inRangeC '1' '9') cs).map (fun (_, r) => (st, r))
  | .minu =>
    -- [0-5]\d|\d
    (numAlt [(inRangeC '0' '5', pyIsDigitC)] pyIsDigitC cs).map
      (fun (_, r) => (st, r))
  | .sec =>
    -- 6[0-1]|[0-5]\d|\d
    (numAlt [((· = '6'), inRangeC '0' '1'), (inRangeC '0' '5', pyIsDigitC)]
      pyIsDigitC cs).map (fun (v, r) => ({ st with se := v }, r))
  | .ampm => (nameAlt ["am", "pm"] cs).map (fun (_, r) => (st, r))
  | .zoff => (zoffAlt cs).map (fun (bad, r) => ({ st with offBad := bad }, r))
  | .zname => (nameAlt ["utc", "gmt"] cs).map (fun (_, r) => (st, r))

/-- Run a directive list, enumerating full-pattern matches in regex
backtracking preference order. -/
def runFmt : List Dir → PSt → List Char → List (PSt × List Char)
  | [], st, cs => [(st, cs)]
  | d :: ds, st, cs =>
    (stepDir d st cs).flatMap (fun (st1, r1) => runFmt ds st1 r1)

/-- One pass of format compilation: `%X` becomes its directive, each
whitespace character a `ws`, other characters literals. -/
def compileFmt0 : List Char → List Dir
  | [] => []
  | '%' :: c :: rest =>
    (match c with
     | 'a' => Dir.wd
     | 'b' => Dir.mon
     | 'm' => Dir.monNum
     | 'd' => Dir.day
     | 'Y' => Dir.year
     | 'H' => Dir.h24
     | 'I' => Dir.h12
     | 'M' => Dir.minu
     | 'S' => Dir.sec
     | 'p' => Dir.ampm
     | 'z' => Dir.zoff
     | 'Z' => Dir.zname
     | x => Dir.lit x) :: compileFmt0 rest
  | c :: rest =>
    (if pyIsSpaceC c then Dir.ws else Dir.lit c) :: compileFmt0 rest

/-- Collapse adjacent whitespace directives: a whitespace run in the format
becomes a single `\s+`. -/
def squeezeWs : List Dir → List Dir
  | [] => []
  | [d] => [d]
  | d1 :: d2 :: rest =>
    if d1 = Dir.ws && d2 = Dir.ws then squeezeWs (d2 :: rest)
    else d1 :: squeezeWs (d2 :: rest)

/-- Compile a Python format string into directives: `%X` becomes its
directive, whitespace runs become `\s+`, other characters are literals. -/
def compileFmt (cs : List Char) : List Dir := squeezeWs (compileFmt0 cs)

/-- `datetime.strptime(s, fmt).date()`: take the first full-pattern match,
require full input consumption, then check the `datetime` construction
bounds (year 1..9999, day within month, seconds at most 59, offset below
24 hours). -/
def strptimeYMD (fmt : List Dir) (cs : List Char) : Option (Nat × Nat × Nat) :=
  match runFmt fmt {} cs with
  | [] => none
  | (st, rest) :: _ =>
    if rest.isEmpty && !st.offBad && st.se ≤ 59 && validYMD st.y st.mo st.d then
      some (st.y, st.mo, st.d)
    else none

/-- The explicit format list of `try_parse_date`, verbatim from the source. -/
def fmts : List String :=
  ["%a, %d %b %Y %H:%M:%S %z", "%a, %d %b %Y %H:%M:%S %Z",
   "%a %b %d, %Y %I:%M %p", "%a %b %d, %Y", "%b %d, %Y",
   "%d %b %Y", "%Y-%m-%d", "%a %b %d %H:%M:%S %Y", "%d %b %Y %H:%M"]

/-- First `some` in a list of options. -/
def firstSome : List (Option α) → Option α
  | [] => none
  | some x :: _ => some x
  | none :: rest => firstSome rest

/-- `s.replace("Z", "+00:00")`: every `Z` replaced. -/
def replaceZ (cs : List Char) : List Char :=
  cs.flatMap (fun c => if c = 'Z' then "+00:00".data else [c])

/--
`try_parse_date(raw)`: returns the empty string for empty input; strips the
input; if it ends with `Z`, replaces `Z` with `+00:00`; tries the strict ISO
parse and takes the date; otherwise tries the ordered explicit format list;
returns the empty string when nothing parses.
-/
def try_parse_date (raw : String) : String :=
  if raw = "" then ""
  else
    let s := pyStrip raw
    let t := if s.data.getLast? = some 'Z' then replaceZ s.data else s.data
    match pyFromIso t with
    | some (y, m, d) => isoOfYMD y m d
    | none =>
      match firstSome ((fmts.map (fun f => compileFmt f.data)).map
        (fun f => strptimeYMD f t)) with
      | some (y, m, d) => isoOfYMD y m d
      | none => ""

/-- `iso_date(raw)`: `try_parse_date(raw) or raw`. -/
def iso_date (raw : String) : String :=
  let t := try_parse_date raw
  if t = "" then raw else t

/-! ## A small backtracking regex engine for the fixed patterns of the
source.  A matcher takes the character preceding the current position (for
`\b`) and the remaining input, and enumerates (consumed, rest) splits in
the backtracking preference order of the Python `re` engine; `re.search`
takes the first split at the leftmost matching position. -/

/-- Matcher: previous character, remaining input, preferred splits. -/
def RM : Type := Option Char → List Char → List (List Char × List Char)

/-- The empty match. -/
def epsR : RM := fun _ s => [([], s)]

/-- Sequencing, threading the preceding character. -/
def seqR (a b : RM) : RM := fun p s =>
  (a p s).flatMap (fun (c1, r1) =>
    (b (match c1.getLast? with | some x => some x | none => p) r1).map
      (fun (c2, r2) => (c1 ++ c2, r2)))

/-- Chain of matchers. -/
def chainR (ms : List RM) : RM := ms.foldr seqR epsR

/-- Ordered alternation. -/
def altR (ms : List RM) : RM := fun p s => ms.flatMap (fun m => m p s)

/-- Greedy option `(...)?`. -/
def optR (m : RM) : RM := fun p s => m p s ++ [([], s)]

/-- Case-insensitive literal (whole-pattern `re.IGNORECASE`); the consumed
characters are the input characters, as in `m.group(0)`. -/
def litCI (w : String) : RM := fun _ s =>
  if matchesCI w.data s then [(s.take w.data.length, s.drop w.data.length)] else []

/-- Case-sensitive literal. -/
def litCS (w : String) : RM := fun _ s =>
  if w.data.isPrefixOf s then [(w.data, s.drop w.data.length)] else []

/-- Single character from a class. -/
def clsR (f : Char → Bool) : RM := fun _ s =>
  match s with
  | c :: r => if f c then [([c], r)] else []
  | [] => []

/-- Greedy counted repetition `{lo,hi}` of a character class. -/
def repRange (f : Char → Bool) (lo hi : Nat) : RM := fun _ s =>
  let run := (s.takeWhile f).length
  let k := min run hi
  if k < lo then []
  else (List.range (k + 1 - lo)).map (fun i => (s.take (k - i), s.drop (k - i)))

/-- Greedy `+` of a character class. -/
def repPlus (f : Char → Bool) : RM := fun p s => repRange f 1 s.length p s

/-- Greedy `*` of a character class. -/
def repStar (f : Char → Bool) : RM := fun p s => repRange f 0 s.length p s

/-- Exact repetition of a character class. -/
def repExact (f : Char → Bool) (n : Nat) : RM := repRange f n n

/-- Word-character test lifted to an optional character (string edge = not
a word character). -/
def isWordOpt : Option Char → Bool
  | some c => isWordC c
  | none => false

/-- The `\b` zero-width word-boundary assertion. -/
def bndR : RM := fun p s =>
  if isWordOpt p != isWordOpt s.head? then [([], s)] else []

/-- `re.search`: leftmost match, first preference; returns `group(0)`. -/
def searchGo (m : RM) : Option Char → List Char → Option (List Char)
  | p, s =>
    match m p s with
    | (c, _) :: _ => some c
    | [] =>
      match s with
      | [] => none
      | c :: r => searchGo m (some c) r

/-- `re.search` over a string from the start. -/
def searchR (m : RM) (s : List Char) : Option (List Char) := searchGo m none s

/-- `re.finditer`: all non-overlapping matches, scanning left to right,
resuming after each consumed match.  Fuel bounds the recursion; matches of
the patterns used here always consume at least one character. -/
def findAllGo (m : RM) : Nat → Option Char → List Char → List (List Char)
  | 0, _, _ => []
  | fuel + 1, p, s =>
    match m p s with
    | (c, r) :: _ =>
      if c.isEmpty then
        match s with
        | [] => []
        | x :: xs => findAllGo m fuel (some x) xs
      else c :: findAllGo m fuel (c.getLast?) r
    | [] =>
      match s with
      | [] => []
      | x :: xs => findAllGo m fuel (some x) xs

/-- `re.finditer` over a string. -/
def findAllR (m : RM) (s : List Char) : List (List Char) :=
  findAllGo m (s.length + 1) none s

/-! ## `find_any_date_text` and its four patterns, verbatim shapes from the
source (matched under `re.IGNORECASE`, so letter classes accept either
case). -/

/-- Weekday alternation `(?:Mon|Tue|Wed|Thu|Fri|Sat|Sun)`. -/
def wdAltR : RM := altR (["Mon", "Tue", "Wed", "Thu", "Fri", "Sat", "Sun"].map litCI)

/-- Month-name alternation `(?:Jan|...|Dec)`. -/
def monAltR : RM :=
  altR (["Jan", "Feb", "Mar", "Apr", "May", "Jun", "Jul", "Aug", "Sep", "Oct",
    "Nov", "Dec"].map litCI)

/-- `\b(?:Mon|...)\s+[A-Z][a-z]{2}\s+\d{1,2},\s+\d{4}(?:\s+\d{1,2}:\d{2}\s*(?:am|pm))?` -/
def pat1 : RM :=
  chainR [bndR, wdAltR, repPlus pyIsSpaceC, clsR pyIsAlphaC, repExact pyIsAlphaC 2,
    repPlus pyIsSpaceC, repRange pyIsDigitC 1 2, litCI ",", repPlus pyIsSpaceC,
    repExact pyIsDigitC 4,
    optR (chainR [repPlus pyIsSpaceC, repRange pyIsDigitC 1 2, litCI ":",
      repExact pyIsDigitC 2, repStar pyIsSpaceC, altR [litCI "am", litCI "pm"]])]

/-- `\b\d{1,2}\s+(?:Jan|...|Dec)\s+\d{4}(?:\s+\d{1,2}:\d{2})?` -/
def pat2 : RM :=
  chainR [bndR, repRange pyIsDigitC 1 2, repPlus pyIsSpaceC, monAltR,
    repPlus pyIsSpaceC, repExact pyIsDigitC 4,
    optR (chainR [repPlus pyIsSpaceC, repRange pyIsDigitC 1 2, litCI ":",
      repExact pyIsDigitC 2])]

/-- `\b\d{4}-\d{2}-\d{2}\b` -/
def pat3 : RM :=
  chainR [bndR, repExact pyIsDigitC 4, litCI "-", repExact pyIsDigitC 2,
    litCI "-", repExact pyIsDigitC 2, bndR]

/-- `\b(?:Mon|...),\s+\d{1,2}\s+(?:Jan|...)\s+\d{4}(?:\s+\d{2}:\d{2}:\d{2}\s+\S+)?` -/
def pat4 : RM :=
  chainR [bndR, wdAltR, litCI ",", repPlus pyIsSpaceC, repRange pyIsDigitC 1 2,
    repPlus pyIsSpaceC, monAltR, repPlus pyIsSpaceC, repExact pyIsDigitC 4,
    optR (chainR [repPlus pyIsSpaceC, repExact pyIsDigitC 2, litCI ":",
      repExact pyIsDigitC 2, litCI ":", repExact pyIsDigitC 2,
      repPlus pyIsSpaceC, repPlus (fun c => !pyIsSpaceC c)])]

/-- The prioritized pattern list of `find_any_date_text`. -/
def datePats : List RM := [pat1, pat2, pat3, pat4]

/-- The pattern loop: for each pattern in order, take its first match; if
that match survives `try_parse_date`, return the parse, else move on. -/
def findAnyGo : List RM → List Char → String
  | [], _ => ""
  | p :: ps, t =>
    match searchR p t with
    | some g =>
      let parsed := try_parse_date ⟨g⟩
      if parsed ≠ "" then parsed else findAnyGo ps t
    | none => findAnyGo ps t

/-- `find_any_date_text(big_text)`. -/
def find_any_date_text (big_text : String) : String :=
  findAnyGo datePats big_text.data

/-! ## Display-name humanization (`_strip_code_blocks`,
`_most_common_casing`, `humanize_repo_display_name`).  The README text is
an explicit parameter: `_fetch_readme_text` is a cached network capability
and lies at the fetch boundary. -/

/-- The backtick character (code fences are three of these). -/
def ftick : Char := Char.ofNat 96

/-- Removal of fenced code regions: the non-greedy substitution deletes
each leftmost pair of triple-backtick fences together with everything
between them; an unclosed opening fence is left in place (the pattern then
has no match anywhere).  Fuel bounds the scan. -/
def stripFencedGo : Nat → List Char → List Char
  | 0, cs => cs
  | fuel + 1, cs =>
    match subIdx [ftick, ftick, ftick] cs with
    | none => cs
    | some i =>
      match subIdx [ftick, ftick, ftick] (cs.drop (i + 3)) with
      | none => cs
      | some j => cs.take i ++ stripFencedGo fuel (cs.drop (i + 3 + j + 3))

/-- Python `str.splitlines` restricted to `\n`, `\r\n`, `\r` terminators. -/
def splitNlRaw : List Char → List (List Char)
  | [] => [[]]
  | '\x0d' :: '\n' :: rest => [] :: splitNlRaw rest
  | '\x0d' :: rest => [] :: splitNlRaw rest
  | '\n' :: rest => [] :: splitNlRaw rest
  | c :: rest =>
    match splitNlRaw rest with
    | l :: ls => (c :: l) :: ls
    | [] => [[c]]

/-- Python `str.splitlines`: the empty string has no lines, and a trailing
terminator does not open a final empty line. -/
def pySplitLines (s : String) : List String :=
  match s.data with
  | [] => []
  | cs =>
    let parts := splitNlRaw cs
    let parts :=
      if cs.getLast? = some '\n' || cs.getLast? = some '\x0d' then parts.dropLast
      else parts
    parts.map (fun l => ⟨l⟩)

/-- Is a line an indented code line, i.e. matched by `[ \t]{4,}.*`? -/
def isIndentedLine (l : String) : Bool :=
  (l.data.takeWhile (fun c => c = ' ' || c = '\t')).length ≥ 4

/-- `_strip_code_blocks(markdown)`: drop fenced code regions, then drop
runs of indented code lines (the second substitution removes each matched
line together with its terminator, so line-wise filtering is equivalent for
every later line-based use). -/
def strip_code_blocks (markdown : String) : String :=
  if markdown = "" then ""
  else
    let noFence : String := ⟨stripFencedGo markdown.data.length markdown.data⟩
    ⟨joinSep '\n'
      (((pySplitLines noFence).filter (fun l => !isIndentedLine l)).map String.data)⟩

/-- Is a line a Markdown heading, i.e. matched by `^\s{0,3}#{1,6}\s+`? -/
def isHeadingLine (l : String) : Bool :=
  let w := l.data.takeWhile pyIsSpaceC
  if w.length > 3 then false
  else
    let rest := l.data.drop w.length
    let hs := rest.takeWhile (fun c => c = '#')
    1 ≤ hs.length && hs.length ≤ 6 &&
      (match rest.drop hs.length with
       | c :: _ => pyIsSpaceC c
       | [] => false)

/-- The token occurrence pattern `\b<escaped token>\b` under `re.IGNORECASE`. -/
def tokPat (token : String) : RM := chainR [bndR, litCI token, bndR]

/-- Bump a key in an insertion-ordered association list, as a Python dict. -/
def addCount : List (String × Nat) → String → List (String × Nat)
  | [], k => [(k, 1)]
  | (a, n) :: rest, k =>
    if a = k then (a, n + 1) :: rest else (a, n) :: addCount rest k

/-- Add `m` to a key, appending it when absent (`counts.get(v, 0) + c*3`). -/
def addCountN : List (String × Nat) → String → Nat → List (String × Nat)
  | [], k, m => [(k, m)]
  | (a, n) :: rest, k, m =>
    if a = k then (a, n + m) :: rest else (a, n) :: addCountN rest k m

/-- `collect_counts(s)`: casing variants of the token found in `s` with
their frequencies, in first-occurrence order. -/
def collect_counts (token : String) (s : String) : List (String × Nat) :=
  ((findAllR (tokPat token) s.data).map (fun g => (⟨g⟩ : String))).foldl addCount []

/-- `is_allcaps(s)`: some letters, all of them uppercase. -/
def is_allcaps (s : String) : Bool :=
  s.data.any pyIsAlphaC && s.data.all (fun c => !pyIsAlphaC c || pyIsUpperC c)

/-- `is_titlecase(s)`: the letters form an exact title-case word. -/
def is_titlecase (s : String) : Bool :=
  match s.data.filter pyIsAlphaC with
  | [] => false
  | c :: rest => pyIsUpperC c && rest.map pyLowerC = rest

/-- `is_mixedcase(s)`: at least two uppercase letters, not all-caps. -/
def is_mixedcase (s : String) : Bool :=
  s.data.countP pyIsUpperC ≥ 2 && !is_allcaps s

/-- `rank(variant)`: mixed-case 3, title-case 2, all-caps 1, other 0. -/
def rank (v : String) : Nat :=
  if is_mixedcase v then 3 else if is_titlecase v then 2 else if is_allcaps v then 1 else 0

/-- Strict lexicographic comparison of the `(rank, count)` sort keys. -/
def keyLt (a b : Nat × Nat) : Bool := a.1 < b.1 || (a.1 = b.1 && a.2 < b.2)

/-- Python `max(items, key=...)`: the first item with maximal key. -/
def pyMaxBy (l : List (String × Nat)) : Option (String × Nat) :=
  match l with
  | [] => none
  | x :: xs =>
    some (xs.foldl (fun cur y =>
      if keyLt (rank cur.1, cur.2) (rank y.1, y.2) then y else cur) x)

/-- The weighted variant table of `_most_common_casing`: prose counts, plus
heading counts boosted three-fold (headings carry brand styling). -/
def countsFor (text token : String) : List (String × Nat) :=
  let hay := strip_code_blocks text
  let lines := pySplitLines hay
  let heading_lines := lines.filter isHeadingLine
  let prose_lines := lines.filter (fun l => !isHeadingLine l)
  let prose : String := ⟨joinSep '\n' (prose_lines.map String.data)⟩
  let headings : String := ⟨joinSep '\n' (heading_lines.map String.data)⟩
  (collect_counts token headings).foldl
    (fun acc (v, c) => addCountN acc v (c * 3)) (collect_counts token prose)

/-- `_most_common_casing(text, token)` (the nested copy of
`_strip_code_blocks` in the source is identical to the module-level one).
Every variant key is nonempty, so returning the variant itself models the
truthiness test `if observed:` at the call site. -/
def most_common_casing (text token : String) : Option String :=
  if text = "" then none
  else
    let counts := countsFor text token
    if counts.isEmpty then none
    else if pyIsAlphaStr token && token.length ≤ 4 &&
        counts.any (fun kv => kv.1 = pyCapitalize (pyLower token)) then
      some (pyCapitalize (pyLower token))
    else (pyMaxBy counts).map (·.1)

/-- The `^([a-z]+)(\d+)$` match of the structural fallback: a nonempty run
of lowercase letters followed by a nonempty run of digits. -/
def lettersDigits (cs : List Char) : Option (List Char × List Char) :=
  let l := cs.takeWhile pyIsLowerC
  let rest := cs.drop l.length
  if !l.isEmpty && !rest.isEmpty && rest.all pyIsDigitC then some (l, rest) else none

/-- `re.split(r"(\d+)", ct)` with empty pieces dropped: the maximal runs of
digit / non-digit characters in order. -/
def digitRuns (cs : List Char) : List (List Char) :=
  cs.splitBy (fun a b => pyIsDigitC a = pyIsDigitC b)

/-- The per-token structural fallback and README lookup of
`humanize_repo_display_name`. -/
def tokenDisplay (readme ct : String) : String :=
  match most_common_casing readme ct with
  | some v => v
  | none =>
    if ct.data.any pyIsDigitC then
      match lettersDigits ct.data with
      | some (l, ds) =>
        if l.length ≤ 4 then ⟨l.map pyUpperC ++ ds⟩
        else ⟨(digitRuns ct.data).flatMap
          (fun p => if p.all pyIsAlphaC && !p.isEmpty then pyCapList p else p)⟩
      | none => ⟨(digitRuns ct.data).flatMap
          (fun p => if p.all pyIsAlphaC && !p.isEmpty then pyCapList p else p)⟩
    else if ct.length ≤ 4 then (if pyIsUpperStr ct then ct else capFirst ct)
    else capFirst ct

/-- `humanize_repo_display_name(readme, repo_canonical)`: split the
canonical name on hyphen/underscore, resolve each token via the README or
the structural fallback, force a capital on fully lowercase results, and
rejoin with hyphens. -/
def humanize_repo_display_name (readme repo_canonical : String) : String :=
  let tokens := (splitP (fun c => c = '-' || c = '_') repo_canonical.data).map
    (fun l => (⟨l⟩ : String))
  let out := (tokens.filter (fun t => t ≠ "")).map (tokenDisplay readme)
  let fixed := out.map (fun t => if pyIsLowerStr t then capFirst t else t)
  ⟨joinSep '-' (fixed.map String.data)⟩

/-! ## `capitalize_project` -/

/-- Underscore-to-hyphen replacement (`name.replace("_", "-")`). -/
def undToDash (c : Char) : Char := if c = '_' then '-' else c

/-- `capitalize_project(name)`: names with an uppercase letter pass through;
hyphen/underscore-separated names are re-joined from capitalized segments;
otherwise the name is capitalized. -/
def capitalize_project (name : String) : String :=
  if name.data.any pyIsUpperC then name
  else if name.data.any (fun c => c = '-' || c = '_') then
    ⟨joinSep '-'
      ((splitP (fun c => c = '-') (name.data.map undToDash)).map pyCapList)⟩
  else pyCapitalize name

/-! ## Records, HTML page data, and the GitHub extractor.  HTTP responses
and parsed DOM queries are external capabilities; a fetched page appears as
the relevant query results (title elements, `datetime` attributes in
document order, the serialized markup, the visible text). -/

/-- The output unit: one normalized bug record. -/
structure BugRecord where
  id : String
  url : String
  lead : String
  date : String
  desc : String
deriving Repr, DecidableEq

/-- The raw ISO-8601 timestamp pattern scanned over the serialized markup:
`\b\d{4}-\d{2}-\d{2}T\d{2}:\d{2}:\d{2}(?:\.\d+)?(?:Z|[+\-]\d{2}:\d{2})\b`
(no IGNORECASE flag on this one). -/
def patISOraw : RM :=
  chainR [bndR, repExact pyIsDigitC 4, litCS "-", repExact pyIsDigitC 2,
    litCS "-", repExact pyIsDigitC 2, litCS "T", repExact pyIsDigitC 2,
    litCS ":", repExact pyIsDigitC 2, litCS ":", repExact pyIsDigitC 2,
    optR (chainR [litCS ".", repPlus pyIsDigitC]),
    altR [litCS "Z",
      chainR [clsR (fun c => c = '+' || c = '-'), repExact pyIsDigitC 2,
        litCS ":", repExact pyIsDigitC 2]],
    bndR]

/-- A parsed HTML document, reduced to the queries
`collect_all_datetimes_from_html` makes of it. -/
structure HtmlPage where
  datetimeAttrs : List String
  rawHtml : String
  visibleText : String
deriving Repr, DecidableEq

/-- `collect_all_datetimes_from_html(soup)`: `iso_date` of every `datetime`
attribute value, then `iso_date` of every raw ISO-8601 timestamp in the
markup, then the one free-text date phrase; empty results are skipped. -/
def collect_all_datetimes_from_html (p : HtmlPage) : List String :=
  let fromAttrs := p.datetimeAttrs.filterMap (fun a =>
    let d := iso_date a
    if d ≠ "" then some d else none)
  let fromRaw := (findAllR patISOraw p.rawHtml.data).filterMap (fun g =>
    let d := iso_date (⟨g⟩ : String)
    if d ≠ "" then some d else none)
  let fromText :=
    let d := find_any_date_text p.visibleText
    if d ≠ "" then [d] else []
  fromAttrs ++ fromRaw ++ fromText

/-- `urlparse(url).path` for `scheme://netloc/path?query#fragment` URLs. -/
def urlPath (url : String) : String :=
  let cs := url.data
  let cut := fun (l : List Char) => l.takeWhile (fun c => c ≠ '?' && c ≠ '#')
  match subIdx "://".data cs with
  | some i =>
    let rest := (cs.drop (i + 3)).dropWhile (fun c => c ≠ '/' && c ≠ '?' && c ≠ '#')
    match rest with
    | '/' :: _ => ⟨cut rest⟩
    | _ => ""
  | none => ⟨cut cs⟩

/-- `parts.path.strip("/").split("/")`. -/
def pathSegs (path : String) : List String :=
  (splitP (fun c => c = '/') (pyStripP (fun c => c = '/') path).data).map
    (fun l => (⟨l⟩ : String))

/-- The structured GitHub issue API response, after `r.json()`:
whether it parsed to an object without the error marker key, and the
`title` / `created_at` fields (empty when absent or null). -/
structure GithubApiResp where
  isObjNoMsg : Bool
  title : String
  created_at : String
deriving Repr, DecidableEq

/-- The rendered GitHub issue page fetch: the redirect-resolved final URL
path and the title-bearing elements, plus the parsed document. -/
structure GithubIssuePage extends HtmlPage where
  finalPath : String
  jsIssueTitle : Option String
  metaTitle : Option String
  titleTag : Option String
deriving Repr, DecidableEq

/-- The network capabilities `fetch_github` consumes, as fetched data: the
API response, the rendered page, the canonical repository name resolution
(`canonical_github_repo_name`, an API/HTML/cache chain), and the README
text (`_fetch_readme_text`). -/
structure GithubEnv where
  api : GithubApiResp
  page : GithubIssuePage
  canonicalName : String
  readme : String
deriving Repr, DecidableEq

/-- Typed failure of an extractor (`raise ValueError` in the source). -/
inductive FetchFailure
  | malformedURL (url : String)
deriving Repr, DecidableEq

/-- `clean_title(t)`: cut at the site-branding separator, strip, reject
known chrome strings. -/
def clean_title (t : String) : String :=
  if t = "" then ""
  else
    let t2 := pyStrip ⟨t.data.takeWhile (fun c => c ≠ '·')⟩
    if t2 = "GitHub" || t2 = "Page not found" || t2 = "Sign in to GitHub" then ""
    else t2

/-- The malformed-path guard `len(seg) < 4 or seg[2] != "issues"`. -/
def malformedGithubSeg (seg : List String) : Bool :=
  seg.length < 4 || seg.get? 2 ≠ some "issues"

/-- The redirect check `len(redirected) >= 4 and redirected[2] == "issues"`. -/
def validIssuePath (seg : List String) : Bool :=
  seg.length ≥ 4 && seg.get? 2 = some "issues"

/-- The HTML-title fallback chain of `fetch_github`: issue-title element,
then page metadata, then the document title, each candidate cleaned; the
page title is trusted only when the page resolved to a valid issue path. -/
def github_fallback_title (page : GithubIssuePage) (title0 : String) : String :=
  let valid := validIssuePath (pathSegs page.finalPath)
  let t1 := clean_title (page.jsIssueTitle.getD "")
  let t2 := if t1 = "" then
      (match page.metaTitle with
       | some c => clean_title c
       | none => "")
    else t1
  let html_title := if t2 = "" then
      (match page.titleTag with
       | some c => clean_title c
       | none => "")
    else t2
  if valid && html_title ≠ "" then
    (if title0 ≠ "" then title0 else html_title)
  else title0

/-- The creation-date recovery of `fetch_github` over the rendered page:
on a valid issue path, the minimum of all collected timestamps, with the
free-text scan as last resort; otherwise the API value stands. -/
def github_page_date (page : GithubIssuePage) (created0 : String) : String :=
  if validIssuePath (pathSegs page.finalPath) then
    let all_dates := collect_all_datetimes_from_html page.toHtmlPage
    let c1 := if !all_dates.isEmpty then pyMinStr all_dates else created0
    if c1 = "" then find_any_date_text page.visibleText else c1
  else created0

/-- The title/date resolution of `fetch_github`: API values when the API
yielded both, else the page fallbacks. -/
def github_title_created (env : GithubEnv) : String × String :=
  let title0 := if env.api.isObjNoMsg then pyStrip env.api.title else ""
  let created0 := if env.api.isObjNoMsg then iso_date env.api.created_at else ""
  if title0 = "" || created0 = "" then
    (github_fallback_title env.page title0, github_page_date env.page created0)
  else (title0, created0)

/-- `fetch_github(session, url, lead)`.  Mirrors the source: path guard,
API title/date, HTML fallback with issue-path validation, minimum of all
collected page timestamps, canonical-name humanization. -/
def fetch_github (env : GithubEnv) (url lead : String) :
    Except FetchFailure BugRecord :=
  let seg := pathSegs (urlPath url)
  if malformedGithubSeg seg then
    .error (.malformedURL url)
  else
    let number := (seg.get? 3).getD ""
    let st := github_title_created env
    let repo_display := humanize_repo_display_name env.readme env.canonicalName
    .ok { id := repo_display ++ " #" ++ number, url := url, lead := lead,
          date := st.2, desc := st.1 }

/-! ## The archived-mail extractor -/

/-- The subject pattern
`\[([^\]]+)\]\s+\[Bug\s+(\d+)\]\s*(?:New:\s*)?(.*)` under IGNORECASE,
matched at the current position.  Every quantifier here is forced by the
following literal, so the match is deterministic. -/
def mailMatchAt (s : List Char) : Option (String × String × String) :=
  match s with
  | '[' :: r =>
    let proj := r.takeWhile (fun c => c ≠ ']')
    if proj.isEmpty then none
    else
      match r.drop proj.length with
      | ']' :: r2 =>
        let ws1 := r2.takeWhile pyIsSpaceC
        if ws1.isEmpty then none
        else
          match r2.drop ws1.length with
          | '[' :: r3 =>
            if matchesCI "Bug".data r3 then
              let r4 := r3.drop 3
              let ws2 := r4.takeWhile pyIsSpaceC
              if ws2.isEmpty then none
              else
                let r5 := r4.drop ws2.length
                let num := r5.takeWhile pyIsDigitC
                if num.isEmpty then none
                else
                  match r5.drop num.length with
                  | ']' :: r6 =>
                    let r7 := r6.drop (r6.takeWhile pyIsSpaceC).length
                    let r8 :=
                      if matchesCI "New:".data r7 then
                        let x := r7.drop 4
                        x.drop (x.takeWhile pyIsSpaceC).length
                      else r7
                    let tail := r8.takeWhile (fun c => c ≠ '\n')
                    some (⟨proj⟩, ⟨num⟩, ⟨tail⟩)
                  | _ => none
            else none
          | _ => none
      | _ => none
  | _ => none

/-- `MAIL_SUBJ_BUG.search(subj)`: leftmost match. -/
def mailSearch : List Char → Option (String × String × String)
  | [] => none
  | c :: rest =>
    match mailMatchAt (c :: rest) with
    | some g => some g
    | none => mailSearch rest

/-- The fetched mail-archive page: title element text, the `date` page
metadata content, the visible text. -/
structure MailPage where
  title : Option String
  metaDate : Option String
  visibleText : String
deriving Repr, DecidableEq

/-- `fetch_mailarchive(session, url, lead)` after the page fetch. -/
def fetch_mailarchive (page : MailPage) (url lead : String) : BugRecord :=
  let subj := pyStrip (page.title.getD "")
  let parsed := mailSearch subj.data
  let bug_id? :=
    match parsed with
    | some (p, n, _) =>
      some (capitalize_project (pyStrip p) ++ " #" ++ pyStrip n)
    | none => none
  let desc :=
    match parsed with
    | some (_, _, t) => if pyStrip t ≠ "" then pyStrip t else subj
    | none => subj
  let date1 :=
    match page.metaDate with
    | some c => if c ≠ "" then iso_date c else ""
    | none => ""
  let date2 := if date1 = "" then find_any_date_text page.visibleText else date1
  let bug_id :=
    match bug_id? with
    | some b => b
    | none => "MailArchive " ++ os_basename url
  { id := bug_id, url := url, lead := lead, date := date2, desc := desc }

/-! ## Orchestration: URL list reading, the worker batch, final sorting -/

/-- `read_url_list(path)` on the stripped file lines: drop blank and
comment lines, deduplicate exactly, keeping first occurrences. -/
def read_url_list_go : List String → List String → List String
  | [], _ => []
  | ln :: rest, seen =>
    if ln = "" || "#".data.isPrefixOf ln.data then read_url_list_go rest seen
    else if ln ∈ seen then read_url_list_go rest seen
    else ln :: read_url_list_go rest (ln :: seen)

/-- `read_url_list` over the raw file lines. -/
def read_url_list (lines : List String) : List String :=
  read_url_list_go (lines.map pyStrip) []

/-- The future-collection loop of `main`: every per-URL outcome is either
appended to the results or counted as a warning; no failure escapes. -/
def runBatch (f : String → Except ε BugRecord) : List String → List BugRecord × Nat
  | [] => ([], 0)
  | u :: us =>
    let rest := runBatch f us
    match f u with
    | .ok r => (r :: rest.1, rest.2)
    | .error _ => (rest.1, rest.2 + 1)

/-- The sort key comparison `x["id"].lower()` of the final sort. -/
def recLe (a b : BugRecord) : Bool := lexLe (pyLower a.id).data (pyLower b.id).data

/-- `results.sort(key=lambda x: x["id"].lower())`: a stable sort by the
case-insensitive identifier. -/
def sortRecords (l : List BugRecord) : List BugRecord := l.mergeSort recLe

/-- The orchestrated output collection: batch outcomes, then the final sort. -/
def mainOutput (f : String → Except ε BugRecord) (urls : List String) :
    List BugRecord :=
  sortRecords (runBatch f urls).1

/-! ## General lemmas about the embedding -/

theorem toNat_ofNat_valid {n : Nat} (h : n.isValidChar) : (Char.ofNat n).toNat = n := by
  simp only [Char.ofNat, h, dif_pos]
  rfl

theorem pyIsLowerC_pyUpperC (c : Char) : pyIsLowerC (pyUpperC c) = false := by
  unfold pyUpperC
  by_cases h : pyIsLowerC c = true
  · have hb : 97 ≤ c.toNat ∧ c.toNat ≤ 122 := by
      simpa [pyIsLowerC] using h
    have hv : (c.toNat - 32).isValidChar := by
      unfold Nat.isValidChar
      omega
    simp only [h, if_true]
    simp [pyIsLowerC, toNat_ofNat_valid hv]
    omega
  · simp only [h]
    simpa using h

theorem pyUpperC_idem (c : Char) : pyUpperC (pyUpperC c) = pyUpperC c := by
  have := pyIsLowerC_pyUpperC c
  unfold pyUpperC
  simp [this]
  intro hcontra
  rw [show (if pyIsLowerC c = true then Char.ofNat (c.toNat - 32) else c) = pyUpperC c from rfl] at hcontra
  rw [this] at hcontra
  cases hcontra

theorem pyIsUpperC_pyLowerC (c : Char) : pyIsUpperC (pyLowerC c) = false := by
  unfold pyLowerC
  by_cases h : pyIsUpperC c = true
  · have hb : 65 ≤ c.toNat ∧ c.toNat ≤ 90 := by
      simpa [pyIsUpperC] using h
    have hv : (c.toNat + 32).isValidChar := by
      unfold Nat.isValidChar
      omega
    simp only [h, if_true]
    simp [pyIsUpperC, toNat_ofNat_valid hv]
    omega
  · simp only [h]
    simpa using h

theorem pyLowerC_idem (c : Char) : pyLowerC (pyLowerC c) = pyLowerC c := by
  have := pyIsUpperC_pyLowerC c
  unfold pyLowerC
  simp [this]
  intro hcontra
  rw [show (if pyIsUpperC c = true then Char.ofNat (c.toNat + 32) else c) = pyLowerC c from rfl] at hcontra
  rw [this] at hcontra
  cases hcontra

/-- Uppercasing cannot produce a character outside the uppercase range
unless it was that character already. -/
theorem pyUpperC_ne {c t : Char} (hne : c ≠ t)
    (ht : ¬(65 ≤ t.toNat ∧ t.toNat ≤ 90)) : pyUpperC c ≠ t := by
  unfold pyUpperC
  by_cases h : pyIsLowerC c = true
  · have hb : 97 ≤ c.toNat ∧ c.toNat ≤ 122 := by
      simpa [pyIsLowerC] using h
    have hv : (c.toNat - 32).isValidChar := by
      unfold Nat.isValidChar
      omega
    simp only [h, if_true]
    intro heq
    apply ht
    have := congrArg Char.toNat heq
    rw [toNat_ofNat_valid hv] at this
    omega
  · simpa [h] using hne

/-- Lowercasing cannot produce a character outside the lowercase range
unless it was that character already. -/
theorem pyLowerC_ne {c t : Char} (hne : c ≠ t)
    (ht : ¬(97 ≤ t.toNat ∧ t.toNat ≤ 122)) : pyLowerC c ≠ t := by
  unfold pyLowerC
  by_cases h : pyIsUpperC c = true
  · have hb : 65 ≤ c.toNat ∧ c.toNat ≤ 90 := by
      simpa [pyIsUpperC] using h
    have hv : (c.toNat + 32).isValidChar := by
      unfold Nat.isValidChar
      omega
    simp only [h, if_true]
    intro heq
    apply ht
    have := congrArg Char.toNat heq
    rw [toNat_ofNat_valid hv] at this
    omega
  · simpa [h] using hne

theorem pyCapList_idem (l : List Char) : pyCapList (pyCapList l) = pyCapList l := by
  cases l with
  | nil => rfl
  | cons c cs =>
    simp only [pyCapList, List.map_map]
    rw [pyUpperC_idem]
    congr 1
    apply List.map_congr_left
    intro a _
    exact pyLowerC_idem a

theorem splitP_ne_nil (p : Char → Bool) (l : List Char) : splitP p l ≠ [] := by
  cases l with
  | nil => simp [splitP]
  | cons c cs =>
    simp only [splitP]
    split
    · simp
    · split
      · simp
      · simp

theorem mem_splitP_no_sep (p : Char → Bool) (l : List Char) :
    ∀ piece ∈ splitP p l, ∀ c ∈ piece, p c = false := by
  induction l with
  | nil =>
    intro piece hp c hc
    simp [splitP] at hp
    subst hp
    cases hc
  | cons a as ih =>
    intro piece hp c hc
    simp only [splitP] at hp
    by_cases hpa : p a = true
    · simp [hpa] at hp
      rcases hp with hp | hp
      · subst hp
        cases hc
      · exact ih piece hp c hc
    · simp only [hpa] at hp
      simp at hp
      rcases hsp : splitP p as with _ | ⟨first, rest⟩
      · exact absurd hsp (splitP_ne_nil p as)
      · rw [hsp] at hp
        simp at hp
        rcases hp with hp | hp
        · subst hp
          rcases List.mem_cons.mp hc with rfl | hc
          · simpa using hpa
          · apply ih first _ c hc
            rw [hsp]
            simp
        · exact ih piece (by rw [hsp]; simp [hp]) c hc

theorem mem_of_mem_splitP (p : Char → Bool) (l : List Char) :
    ∀ piece ∈ splitP p l, ∀ c ∈ piece, c ∈ l := by
  induction l with
  | nil =>
    intro piece hp c hc
    simp [splitP] at hp
    subst hp
    cases hc
  | cons a as ih =>
    intro piece hp c hc
    simp only [splitP] at hp
    by_cases hpa : p a = true
    · simp [hpa] at hp
      rcases hp with hp | hp
      · subst hp
        cases hc
      · exact List.mem_cons_of_mem a (ih piece hp c hc)
    · simp only [hpa] at hp
      simp at hp
      rcases hsp : splitP p as with _ | ⟨first, rest⟩
      · exact absurd hsp (splitP_ne_nil p as)
      · rw [hsp] at hp
        simp at hp
        rcases hp with hp | hp
        · subst hp
          rcases List.mem_cons.mp hc with rfl | hc
          · simp
          · exact List.mem_cons_of_mem a (ih first (by rw [hsp]; simp) c hc)
        · exact List.mem_cons_of_mem a (ih piece (by rw [hsp]; simp [hp]) c hc)

theorem splitP_len_two (p : Char → Bool) (l : List Char) (c : Char)
    (hc : c ∈ l) (hp : p c = true) : 2 ≤ (splitP p l).length := by
  induction l with
  | nil => cases hc
  | cons a as ih =>
    simp only [splitP]
    by_cases hpa : p a = true
    · have := splitP_ne_nil p as
      simp [hpa]
      cases hsp : splitP p as with
      | nil => exact absurd hsp this
      | cons x xs => simp
    · rcases List.mem_cons.mp hc with rfl | hc
      · rw [hp] at hpa
        simp at hpa
      · have h2 := ih hc
        simp only [hpa]
        simp
        cases hsp : splitP p as with
        | nil => exact absurd hsp (splitP_ne_nil p as)
        | cons x xs =>
          rw [hsp] at h2
          simpa using h2

theorem joinSep_splitP (c : Char) (l : List Char) :
    joinSep c (splitP (fun x => x = c) l) = l := by
  induction l with
  | nil => simp [splitP, joinSep]
  | cons a as ih =>
    simp only [splitP]
    by_cases hpa : a = c
    · subst hpa
      simp only [decide_eq_true_eq, if_pos rfl]
      cases hsp : splitP (fun x => x = a) as with
      | nil => exact absurd hsp (splitP_ne_nil _ as)
      | cons x xs =>
        rw [hsp] at ih
        simp only [joinSep, List.nil_append]
        rw [ih]
    · simp only [decide_eq_true_eq, hpa, if_false]
      cases hsp : splitP (fun x => x = c) as with
      | nil => exact absurd hsp (splitP_ne_nil _ as)
      | cons x xs =>
        rw [hsp] at ih
        cases xs with
        | nil =>
          simp only [joinSep] at ih ⊢
          rw [ih]
        | cons y ys =>
          simp only [joinSep, List.cons_append] at ih ⊢
          rw [ih]

theorem splitP_joinSep (c : Char) (ls : List (List Char)) (hne : ls ≠ [])
    (hno : ∀ piece ∈ ls, c ∉ piece) :
    splitP (fun x => x = c) (joinSep c ls) = ls := by
  induction ls with
  | nil => exact absurd rfl hne
  | cons x xs ih =>
    cases xs with
    | nil =>
      simp only [joinSep]
      have hx : c ∉ x := hno x (by simp)
      clear hne hno ih
      induction x with
      | nil => simp [splitP]
      | cons a as ihx =>
        have ha : a ≠ c := by
          intro h
          exact hx (by simp [h])
        simp only [splitP]
        simp only [decide_eq_true_eq, ha, if_false]
        rw [ihx (by intro h; exact hx (List.mem_cons_of_mem a h))]
    | cons y ys =>
      have step : joinSep c (x :: y :: ys) = x ++ c :: joinSep c (y :: ys) := rfl
      rw [step]
      have htail := ih (by simp) (fun piece hp => hno piece (List.mem_cons_of_mem x hp))
      have hx : c ∉ x := hno x (by simp)
      clear hne hno ih step
      induction x with
      | nil =>
        simp only [List.nil_append, splitP, decide_eq_true_eq]
        rw [htail]
        simp
      | cons a as ihx =>
        have ha : a ≠ c := by
          intro h
          exact hx (by simp [h])
        have h2 := ihx (by intro h; exact hx (List.mem_cons_of_mem a h))
        simp only [List.cons_append, splitP, decide_eq_true_eq, ha, if_false]
        simp only [List.append_eq]
        rw [h2]

/-- The separator occurs in the join of at least two pieces. -/
theorem sep_mem_joinSep (c : Char) (x y : List Char) (ys : List (List Char)) :
    c ∈ joinSep c (x :: y :: ys) := by
  simp [joinSep]

/-- Characters of a join are separators or characters of the pieces. -/
theorem mem_joinSep (c : Char) (ls : List (List Char)) (x : Char)
    (hx : x ∈ joinSep c ls) : x = c ∨ ∃ piece ∈ ls, x ∈ piece := by
  induction ls with
  | nil => cases hx
  | cons a as ih =>
    cases as with
    | nil =>
      right
      exact ⟨a, by simp, by simpa [joinSep] using hx⟩
    | cons b bs =>
      simp only [joinSep] at hx
      rcases List.mem_append.mp hx with h | h
      · right
        exact ⟨a, by simp, h⟩
      · rcases List.mem_cons.mp h with rfl | h
        · left
          rfl
        · rcases ih h with h1 | ⟨piece, hp, hxp⟩
          · left
            exact h1
          · right
            exact ⟨piece, List.mem_cons_of_mem a hp, hxp⟩

theorem lexLe_refl (a : List Char) : lexLe a a = true := by
  induction a with
  | nil => rfl
  | cons x xs ih => simp [lexLe, ih]

theorem lexLt_eq_not_lexLe (a b : List Char) : lexLt a b = !lexLe b a := by
  induction a generalizing b with
  | nil =>
    cases b with
    | nil => rfl
    | cons y ys => rfl
  | cons x xs ih =>
    cases b with
    | nil => rfl
    | cons y ys =>
      simp only [lexLt, lexLe]
      rcases Nat.lt_trichotomy x.toNat y.toNat with h | h | h
      · simp [h, Nat.not_lt_of_lt h, Nat.ne_of_lt h, (Nat.ne_of_lt h).symm]
      · simp [h, Nat.lt_irrefl, ih ys]
      · simp [h, Nat.not_lt_of_lt h, Nat.ne_of_lt h, (Nat.ne_of_lt h).symm]

theorem lexLe_of_lexLt (a b : List Char) (h : lexLt a b = true) : lexLe a b = true := by
  induction a generalizing b with
  | nil =>
    cases b with
    | nil => exact absurd h (by simp [lexLt])
    | cons y ys => rfl
  | cons x xs ih =>
    cases b with
    | nil => exact absurd h (by simp [lexLt])
    | cons y ys =>
      simp only [lexLt] at h
      simp only [lexLe]
      rcases Nat.lt_trichotomy x.toNat y.toNat with h1 | h1 | h1
      · simp [h1]
      · simp only [h1, Nat.lt_irrefl, if_false] at h ⊢
        exact ih ys h
      · simp [Nat.not_lt_of_lt h1, h1] at h

theorem lexLe_trans (a b c : List Char) (h1 : lexLe a b = true)
    (h2 : lexLe b c = true) : lexLe a c = true := by
  induction a generalizing b c with
  | nil => rfl
  | cons x xs ih =>
    cases b with
    | nil => exact absurd h1 (by simp [lexLe])
    | cons y ys =>
      cases c with
      | nil => exact absurd h2 (by simp [lexLe])
      | cons z zs =>
        simp only [lexLe] at h1 h2 ⊢
        rcases Nat.lt_trichotomy x.toNat z.toNat with hxz | hxz | hxz
        · simp [hxz]
        · simp only [hxz, Nat.lt_irrefl, if_false]
          -- x and z have equal code points; walk through y
          rcases Nat.lt_trichotomy x.toNat y.toNat with hxy | hxy | hxy
          · -- then y > z, contradicting h2
            rw [hxz] at hxy
            simp [Nat.not_lt_of_lt hxy, hxy] at h2
          · rw [hxy] at hxz
            simp only [hxy, Nat.lt_irrefl, if_false] at h1
            simp only [hxz, Nat.lt_irrefl, if_false] at h2
            exact ih ys zs h1 h2
          · simp [Nat.not_lt_of_lt hxy, hxy] at h1
        · -- x > z: show a contradiction with h1, h2
          exfalso
          rcases Nat.lt_trichotomy x.toNat y.toNat with hxy | hxy | hxy
          · have : z.toNat < y.toNat := Nat.lt_trans hxz hxy
            simp [Nat.not_lt_of_lt this, this, Nat.not_lt_of_lt hxy, hxy] at h2
          · rw [hxy] at hxz
            simp [Nat.not_lt_of_lt hxz, hxz] at h2
          · simp [Nat.not_lt_of_lt hxy, hxy] at h1

theorem lexLe_total (a b : List Char) : lexLe a b || lexLe b a := by
  induction a generalizing b with
  | nil => simp [lexLe]
  | cons x xs ih =>
    cases b with
    | nil => simp [lexLe]
    | cons y ys =>
      simp only [lexLe]
      rcases Nat.lt_trichotomy x.toNat y.toNat with h | h | h
      · simp [h]
      · simp [h, Nat.lt_irrefl, ih ys]
      · simp [h, Nat.not_lt_of_lt h]

/-- The running minimum of `pyMinStr`: membership and lower bound. -/
theorem pyMinStr_spec (x : String) (xs : List String) :
    (pyMinStr (x :: xs) = x ∨ pyMinStr (x :: xs) ∈ xs) ∧
    lexLe (pyMinStr (x :: xs)).data x.data = true ∧
    ∀ y ∈ xs, lexLe (pyMinStr (x :: xs)).data y.data = true := by
  simp only [pyMinStr]
  induction xs generalizing x with
  | nil => simp [lexLe_refl]
  | cons y ys ih =>
    simp only [List.foldl_cons]
    rcases ih (if lexLt y.data x.data then y else x) with ⟨hmem, hle, hall⟩
    by_cases hlt : lexLt y.data x.data = true
    · rw [if_pos hlt] at hmem hle hall ⊢
      refine ⟨?_, ?_, ?_⟩
      · rcases hmem with h | h
        · right
          simp [h]
        · right
          exact List.mem_cons_of_mem y h
      · exact lexLe_trans _ _ _ hle (lexLe_of_lexLt _ _ hlt)
      · intro z hz
        rcases List.mem_cons.mp hz with rfl | hz
        · exact hle
        · exact hall z hz
    · rw [if_neg (by simpa using hlt)] at hmem hle hall ⊢
      refine ⟨?_, hle, ?_⟩
      · rcases hmem with h | h
        · left
          exact h
        · right
          exact List.mem_cons_of_mem y h
      · intro z hz
        rcases List.mem_cons.mp hz with rfl | hz
        · have hyx : lexLe x.data z.data = true := by
            have := lexLt_eq_not_lexLe z.data x.data
            rw [this] at hlt
            simpa using hlt
          exact lexLe_trans _ _ _ hle hyx
        · exact hall z hz

theorem keyLt_irrefl (a : Nat × Nat) : keyLt a a = false := by
  simp [keyLt]

theorem keyLt_trans (a b c : Nat × Nat) (h1 : keyLt a b = true)
    (h2 : keyLt b c = true) : keyLt a c = true := by
  simp only [keyLt] at h1 h2 ⊢
  simp at h1 h2 ⊢
  omega

theorem keyLt_lt_of_nlt (a b c : Nat × Nat) (h1 : keyLt a b = true)
    (h2 : keyLt c b = false) : keyLt a c = true := by
  simp only [keyLt] at h1 h2 ⊢
  simp at h1 h2 ⊢
  omega

/-- The running maximum of `pyMaxBy`: membership and maximality of the
`(rank, count)` key, first maximal element winning ties. -/
theorem pyMaxBy_spec (x : String × Nat) (xs : List (String × Nat)) :
    ∀ r, pyMaxBy (x :: xs) = some r →
      (r = x ∨ r ∈ xs) ∧
      keyLt (rank r.1, r.2) (rank x.1, x.2) = false ∧
      ∀ y ∈ xs, keyLt (rank r.1, r.2) (rank y.1, y.2) = false := by
  simp only [pyMaxBy, Option.some.injEq]
  induction xs generalizing x with
  | nil =>
    intro r h
    simp at h
    subst h
    simp [keyLt_irrefl]
  | cons y ys ih =>
    intro r h
    simp only [List.foldl_cons] at h
    by_cases hlt : keyLt (rank x.1, x.2) (rank y.1, y.2) = true
    · rw [if_pos hlt] at h
      rcases ih y r h with ⟨hmem, hle, hall⟩
      refine ⟨?_, ?_, ?_⟩
      · rcases hmem with h1 | h1
        · right
          simp [h1]
        · right
          exact List.mem_cons_of_mem y h1
      · by_cases hc : keyLt (rank r.1, r.2) (rank x.1, x.2) = true
        · exfalso
          have := keyLt_trans _ _ _ hc hlt
          rw [this] at hle
          cases hle
        · simpa using hc
      · intro z hz
        rcases List.mem_cons.mp hz with rfl | hz
        · exact hle
        · exact hall z hz
    · rw [if_neg (by simpa using hlt)] at h
      rcases ih x r h with ⟨hmem, hle, hall⟩
      refine ⟨?_, hle, ?_⟩
      · rcases hmem with h1 | h1
        · left
          exact h1
        · right
          exact List.mem_cons_of_mem y h1
      · intro z hz
        rcases List.mem_cons.mp hz with rfl | hz
        · by_cases hc : keyLt (rank r.1, r.2) (rank z.1, z.2) = true
          · exfalso
            have := keyLt_lt_of_nlt _ _ _ hc (by simpa using hlt)
            rw [this] at hle
            cases hle
          · simpa using hc
        · exact hall z hz

/-- Batch counting: each URL contributes exactly one outcome. -/
theorem runBatch_counts {ε} (f : String → Except ε BugRecord) (urls : List String) :
    (runBatch f urls).1.length + (runBatch f urls).2 = urls.length := by
  induction urls with
  | nil => rfl
  | cons u us ih =>
    simp only [runBatch]
    cases f u <;> simp <;> omega

/-- The collected results are exactly the successes, in order. -/
theorem runBatch_results {ε} (f : String → Except ε BugRecord) (urls : List String) :
    (runBatch f urls).1 = urls.filterMap (fun u => (f u).toOption) := by
  induction urls with
  | nil => rfl
  | cons u us ih =>
    simp only [runBatch, List.filterMap_cons]
    cases f u with
    | ok r => simp [Except.toOption, ih]
    | error e => simp [Except.toOption, ih]

/-- Every collected record is the success of some input URL. -/
theorem runBatch_mem {ε} (f : String → Except ε BugRecord) (urls : List String)
    (r : BugRecord) (h : r ∈ (runBatch f urls).1) : ∃ u ∈ urls, f u = .ok r := by
  rw [runBatch_results] at h
  rcases List.mem_filterMap.mp h with ⟨u, hu, hr⟩
  refine ⟨u, hu, ?_⟩
  cases hfu : f u with
  | ok v =>
    rw [hfu] at hr
    simp [Except.toOption] at hr
    rw [hr]
  | error e =>
    rw [hfu] at hr
    simp [Except.toOption] at hr

/-- A failing URL in the batch contributes at least one warning. -/
theorem runBatch_warn {ε} (f : String → Except ε BugRecord) (urls : List String)
    (u : String) (e : ε) (hu : u ∈ urls) (hf : f u = .error e) :
    1 ≤ (runBatch f urls).2 := by
  induction urls with
  | nil => cases hu
  | cons v vs ih =>
    simp only [runBatch]
    rcases List.mem_cons.mp hu with rfl | hv
    · rw [hf]
      simp
    · have := ih hv
      cases f v <;> simp <;> omega

/-- `read_url_list_go` produces unique, non-blank, non-comment entries not
seen before. -/
theorem read_url_list_go_spec (ls seen : List String) :
    (read_url_list_go ls seen).Nodup ∧
    ∀ u ∈ read_url_list_go ls seen,
      u ∉ seen ∧ u ≠ "" ∧ "#".data.isPrefixOf u.data = false := by
  induction ls generalizing seen with
  | nil => simp [read_url_list_go]
  | cons ln rest ih =>
    simp only [read_url_list_go]
    by_cases h1 : ln = "" ∨ "#".data.isPrefixOf ln.data
    · rw [if_pos (by rcases h1 with h | h <;> simp [h])]
      exact ih seen
    · rw [if_neg (by simpa using h1)]
      by_cases h2 : ln ∈ seen
      · rw [if_pos h2]
        exact ih seen
      · rw [if_neg h2]
        rcases ih (ln :: seen) with ⟨hnd, hmem⟩
        refine ⟨?_, ?_⟩
        · refine List.nodup_cons.mpr ⟨?_, hnd⟩
          intro hmem2
          exact (hmem ln hmem2).1 (by simp)
        · intro u hu
          rcases List.mem_cons.mp hu with rfl | hu
          · refine ⟨h2, fun hc => h1 (Or.inl hc), ?_⟩
            rw [Bool.eq_false_iff]
            intro hc
            exact h1 (Or.inr hc)
          · rcases hmem u hu with ⟨hseen, hne, hpre⟩
            exact ⟨fun hc => hseen (List.mem_cons_of_mem ln hc), hne, hpre⟩

/-- Capitalization never produces a hyphen or underscore from another
character. -/
theorem pyCapList_no_sep (l : List Char) (hl : ∀ c ∈ l, c ≠ '-' ∧ c ≠ '_') :
    ∀ ch ∈ pyCapList l, ch ≠ '-' ∧ ch ≠ '_' := by
  cases l with
  | nil => simp [pyCapList]
  | cons c cs =>
    intro ch hch
    simp only [pyCapList] at hch
    rcases List.mem_cons.mp hch with rfl | hch
    · have hc := hl c (by simp)
      exact ⟨pyUpperC_ne hc.1 (by decide), pyUpperC_ne hc.2 (by decide)⟩
    · rcases List.mem_map.mp hch with ⟨d, hd, rfl⟩
      have hc := hl d (List.mem_cons_of_mem c hd)
      exact ⟨pyLowerC_ne hc.1 (by decide), pyLowerC_ne hc.2 (by decide)⟩

/-- `undToDash` never yields an underscore. -/
theorem undToDash_ne_underscore (c : Char) : undToDash c ≠ '_' := by
  unfold undToDash
  by_cases h : c = '_'
  · simp [h]
  · simpa [h] using h

/-- The join of capitalized separator-free pieces is a fixed point of
`capitalize_project` provided it exhibits a separator. -/
theorem cap_proj_fix_join (capped : List (List Char))
    (hlen : 2 ≤ capped.length)
    (hsep : ∀ piece ∈ capped, ∀ ch ∈ piece, ch ≠ '-' ∧ ch ≠ '_')
    (hidem : capped.map pyCapList = capped) :
    capitalize_project ⟨joinSep '-' capped⟩ = ⟨joinSep '-' capped⟩ := by
  by_cases hu : (joinSep '-' capped).any pyIsUpperC = true
  · simp [capitalize_project, hu]
  · rcases capped with _ | ⟨x, _ | ⟨y, ys⟩⟩
    · simp at hlen
    · simp at hlen
    · have hdash : ((joinSep '-' (x :: y :: ys)).any
          (fun c => c = '-' || c = '_')) = true := by
        simp only [List.any_eq_true]
        exact ⟨'-', sep_mem_joinSep '-' x y ys, by simp⟩
      have hmapid : (joinSep '-' (x :: y :: ys)).map undToDash
          = joinSep '-' (x :: y :: ys) := by
        rw [show (joinSep '-' (x :: y :: ys)).map undToDash
            = (joinSep '-' (x :: y :: ys)).map id from ?_, List.map_id]
        apply List.map_congr_left
        intro ch hch
        rcases mem_joinSep '-' _ ch hch with rfl | ⟨piece, hp, hcp⟩
        · simp [undToDash]
        · have := (hsep piece hp ch hcp).2
          simp [undToDash, this]
      have hsplit : splitP (fun c => c = '-') (joinSep '-' (x :: y :: ys))
          = x :: y :: ys := by
        apply splitP_joinSep
        · simp
        · intro piece hp hcp
          exact (hsep piece hp '-' hcp).1 rfl
      simp [capitalize_project, hu, hdash, hmapid, hsplit, hidem]

/-- Claim C10 helper: `capitalize_project` is idempotent. -/
theorem capitalize_project_idem (name : String) :
    capitalize_project (capitalize_project name) = capitalize_project name := by
  by_cases h1 : name.data.any pyIsUpperC = true
  · simp [capitalize_project, h1]
  · by_cases h2 : name.data.any (fun c => c = '-' || c = '_') = true
    · -- separator branch: the result is a join of capitalized pieces
      have hform : capitalize_project name
          = ⟨joinSep '-' ((splitP (fun c => c = '-')
              (name.data.map undToDash)).map pyCapList)⟩ := by
        simp [capitalize_project, h1, h2]
      rw [hform]
      apply cap_proj_fix_join
      · -- at least two pieces: the mapped data contains a dash
        rcases List.any_eq_true.mp h2 with ⟨c, hc, hcd⟩
        have hcd2 : c = '-' ∨ c = '_' := by simpa using hcd
        have : ('-' : Char) ∈ name.data.map undToDash := by
          apply List.mem_map.mpr
          refine ⟨c, hc, ?_⟩
          rcases hcd2 with h | h <;> simp [undToDash, h]
        have := splitP_len_two (fun c => c = '-') _ '-' this (by simp)
        simpa using this
      · -- pieces are capitalized separator-free segments
        intro piece hp ch hch
        rcases List.mem_map.mp hp with ⟨seg, hseg, rfl⟩
        apply pyCapList_no_sep seg _ ch hch
        intro d hd
        constructor
        · intro hcontra
          have := mem_splitP_no_sep (fun c => c = '-') _ seg hseg d hd
          simp [hcontra] at this
        · intro hcontra
          have := mem_of_mem_splitP (fun c => c = '-') _ seg hseg d hd
          rcases List.mem_map.mp this with ⟨e, _, he⟩
          exact undToDash_ne_underscore e (he.trans hcontra)
      · -- capitalization is idempotent piecewise
        rw [List.map_map]
        apply List.map_congr_left
        intro seg _
        exact pyCapList_idem seg
    · -- plain capitalize branch
      have hform : capitalize_project name = pyCapitalize name := by
        simp [capitalize_project, h1, h2]
      rw [hform]
      have hchars : ∀ ch ∈ (pyCapitalize name).data, ch ≠ '-' ∧ ch ≠ '_' := by
        have hno : ∀ c ∈ name.data, c ≠ '-' ∧ c ≠ '_' := by
          intro c hc
          have h2f : name.data.any (fun c => c = '-' || c = '_') = false := by
            simpa using h2
          have := List.any_eq_false.mp h2f c hc
          constructor
          · intro hcontra
            simp [hcontra] at this
          · intro hcontra
            simp [hcontra] at this
        exact pyCapList_no_sep name.data hno
      by_cases hu : (pyCapitalize name).data.any pyIsUpperC = true
      · simp [capitalize_project, hu]
      · have hdash : (pyCapitalize name).data.any
            (fun c => c = '-' || c = '_') = false := by
          apply List.any_eq_false.mpr
          intro ch hch
          have := hchars ch hch
          simp [this.1, this.2]
        simp only [capitalize_project, hu, if_false, hdash, if_false]
        show pyCapitalize (pyCapitalize name) = pyCapitalize name
        unfold pyCapitalize
        rw [show (String.mk (pyCapList name.data)).data
            = pyCapList name.data from rfl]
        rw [pyCapList_idem]

/--
Claim C10: the mail-project capitalization function is idempotent —
`capitalize_project(capitalize_project(name)) == capitalize_project(name)`
for every string — and any name already containing an uppercase letter is
returned unchanged.
-/
theorem C10_capitalize_project_idempotent (name : String) :
    capitalize_project (capitalize_project name) = capitalize_project name ∧
    (strHasUpper name = true → capitalize_project name = name) := by
  refine ⟨capitalize_project_idem name, ?_⟩
  intro h
  have : name.data.any pyIsUpperC = true := by
    simpa [strHasUpper] using h
  simp [capitalize_project, this]

/-- Witness for claim C10 at a concrete input with an uppercase letter. -/
theorem C10_capitalize_project_idempotent_witness :
    strHasUpper "LibreCAD-util" = true ∧
    capitalize_project (capitalize_project "LibreCAD-util")
      = capitalize_project "LibreCAD-util" ∧
    capitalize_project "LibreCAD-util" = "LibreCAD-util" :=
  ⟨by decide, (C10_capitalize_project_idempotent "LibreCAD-util").1,
    (C10_capitalize_project_idempotent "LibreCAD-util").2 (by decide)⟩

/--
Claim C4 counterexample: for a document holding the mixed-case variant
`AbCd` twice and the title-case variant `Abcd` once (no all-caps variant at
all), the humanizer returns the title-case variant for the short token
`abcd`, although the claimed ranking places mixed-case above title-case and
its short-token exception only prefers title-case over a more frequent
all-caps variant.
-/
theorem C4_counterexample :
    most_common_casing "AbCd AbCd Abcd" "abcd" = some "Abcd" ∧
    countsFor "AbCd AbCd Abcd" "abcd" = [("AbCd", 2), ("Abcd", 1)] ∧
    rank "AbCd" = 3 ∧
    rank "Abcd" = 2 ∧
    is_allcaps "AbCd" = false ∧
    is_allcaps "Abcd" = false ∧
    ("Abcd" : String) ≠ "AbCd" := by
  refine ⟨by decide, by decide, by decide, by decide, by decide, by decide, by decide⟩

/--
Claim C4 (amended): when the humanizer finds casing variants of a token,
then — unless the token is pure-alphabetic of length at most four and its
exact title-case form occurs in the weighted variant table, in which case
that title-case form is returned outright, over any competitor — it returns
a variant whose `(rank, weighted count)` key is maximal, with mixed-case
ranked over title-case over all-caps over anything else and heading
occurrences already counted three-fold in the table.
-/
theorem C4_variant_selection (text token v : String)
    (h : most_common_casing text token = some v) :
    ((pyIsAlphaStr token && token.length ≤ 4 &&
        (countsFor text token).any
          (fun kv => kv.1 = pyCapitalize (pyLower token))) = true →
      v = pyCapitalize (pyLower token)) ∧
    ((pyIsAlphaStr token && token.length ≤ 4 &&
        (countsFor text token).any
          (fun kv => kv.1 = pyCapitalize (pyLower token))) = false →
      ∃ c, (v, c) ∈ countsFor text token ∧
        ∀ w m, (w, m) ∈ countsFor text token →
          keyLt (rank v, c) (rank w, m) = false) := by
  unfold most_common_casing at h
  by_cases h0 : text = ""
  · rw [if_pos h0] at h
    cases h
  · rw [if_neg h0] at h
    by_cases hc : (countsFor text token).isEmpty = true
    · rw [if_pos hc] at h
      cases h
    · rw [if_neg (by simp [hc])] at h
      constructor
      · intro hcond
        rw [if_pos (by exact_mod_cast hcond)] at h
        exact (Option.some.injEq _ _ ▸ h).symm
      · intro hcond
        rw [if_neg (by rw [hcond]; simp)] at h
        cases hcounts : countsFor text token with
        | nil => simp [hcounts] at hc
        | cons x xs =>
          rw [hcounts] at h
          cases hm : pyMaxBy (x :: xs) with
          | none => rw [hm] at h; cases h
          | some r =>
            rw [hm] at h
            have h2 : r.1 = v := by
              simpa using h
            rcases pyMaxBy_spec x xs r hm with ⟨hmem, hle, hall⟩
            refine ⟨r.2, ?_, ?_⟩
            · rw [← h2]
              rcases hmem with h1 | h1
              · simp [h1]
              · simp [Prod.mk.eta, List.mem_cons_of_mem x h1]
            · intro w m hwm
              rw [← h2]
              rcases List.mem_cons.mp hwm with heq | hmm
              · rw [← heq] at hle
                simpa using hle
              · simpa using hall (w, m) hmm

/-- Witness for claim C4 at a five-letter token where the exception cannot
fire: the returned variant has the maximal key. -/
theorem C4_variant_selection_witness :
    most_common_casing "AbCde AbCde Abcde" "abcde" = some "AbCde" ∧
    ∃ c, ("AbCde", c) ∈ countsFor "AbCde AbCde Abcde" "abcde" ∧
      ∀ w m, (w, m) ∈ countsFor "AbCde AbCde Abcde" "abcde" →
        keyLt (rank "AbCde", c) (rank w, m) = false :=
  ⟨by decide,
    (C4_variant_selection "AbCde AbCde Abcde" "abcde" "AbCde" (by decide)).2
      (by decide)⟩

/-- What claim C1 describes, stated from the spec words for comparison:
only the SUCCESSFULLY NORMALIZED timestamp candidates of the page —
`datetime` attributes and raw ISO timestamps are kept only when
`try_parse_date` succeeds on them.  The code instead keeps `iso_date`
values, which fall back to the raw text when normalization fails. -/
def spec_normalized_candidates (p : HtmlPage) : List String :=
  p.datetimeAttrs.filterMap (fun a =>
    let d := try_parse_date a
    if d ≠ "" then some d else none)
  ++ (findAllR patISOraw p.rawHtml.data).filterMap (fun g =>
    let d := try_parse_date (⟨g⟩ : String)
    if d ≠ "" then some d else none)
  ++ (let d := find_any_date_text p.visibleText
      if d ≠ "" then [d] else [])

/-- Every collected timestamp candidate is a non-empty string. -/
theorem mem_collect_ne_empty (p : HtmlPage) :
    ∀ d ∈ collect_all_datetimes_from_html p, d ≠ "" := by
  intro d hd
  unfold collect_all_datetimes_from_html at hd
  rcases List.mem_append.mp hd with hd | hd
  · rcases List.mem_append.mp hd with hd | hd
    · rcases List.mem_filterMap.mp hd with ⟨a, _, ha⟩
      dsimp only at ha
      by_cases hz : iso_date a ≠ ""
      · rw [if_pos hz] at ha
        injection ha with ha
        rw [← ha]
        exact hz
      · rw [if_neg hz] at ha
        cases ha
    · rcases List.mem_filterMap.mp hd with ⟨g, _, hg⟩
      dsimp only at hg
      by_cases hz : iso_date (⟨g⟩ : String) ≠ ""
      · rw [if_pos hz] at hg
        injection hg with hg
        rw [← hg]
        exact hz
      · rw [if_neg hz] at hg
        cases hg
  · dsimp only at hd
    by_cases hz : find_any_date_text p.visibleText ≠ ""
    · rw [if_pos hz] at hd
      rcases List.mem_singleton.mp hd with rfl
      exact hz
    · rw [if_neg hz] at hd
      cases hd

/-- The page-date recovery on a valid issue path: the minimum of all
collected candidates when any exist, otherwise the API value, with the
free-text scan only when that too is empty. -/
theorem github_page_date_spec (page : GithubIssuePage) (created0 : String)
    (hvalid : validIssuePath (pathSegs page.finalPath) = true) :
    (collect_all_datetimes_from_html page.toHtmlPage ≠ [] →
      github_page_date page created0
          ∈ collect_all_datetimes_from_html page.toHtmlPage ∧
      ∀ d ∈ collect_all_datetimes_from_html page.toHtmlPage,
        lexLe (github_page_date page created0).data d.data = true) ∧
    (collect_all_datetimes_from_html page.toHtmlPage = [] →
      github_page_date page created0
        = (if created0 = "" then find_any_date_text page.visibleText
           else created0)) := by
  unfold github_page_date
  rw [if_pos hvalid]
  constructor
  · intro hne
    cases hc : collect_all_datetimes_from_html page.toHtmlPage with
    | nil => exact absurd hc hne
    | cons x xs =>
      dsimp only
      have hred : (if (!(x :: xs).isEmpty) = true then pyMinStr (x :: xs)
          else created0) = pyMinStr (x :: xs) := by
        simp
      rw [hred]
      rcases pyMinStr_spec x xs with ⟨hmem, hlex, hall⟩
      have hnem : pyMinStr (x :: xs) ≠ "" := by
        have hxne : ∀ d ∈ x :: xs, d ≠ "" := by
          intro d hd
          apply mem_collect_ne_empty page.toHtmlPage
          rw [hc]
          exact hd
        rcases hmem with h | h
        · rw [h]
          exact hxne x (by simp)
        · exact hxne _ (List.mem_cons_of_mem x h)
      rw [if_neg hnem]
      refine ⟨?_, ?_⟩
      · rcases hmem with h | h
        · simp [h]
        · exact List.mem_cons_of_mem x h
      · intro d hd
        rcases List.mem_cons.mp hd with rfl | hd
        · exact hlex
        · exact hall d hd
  · intro he
    rw [he]
    dsimp only
    simp

/--
Claim C1 (amended): when the structured API did not yield both title and
creation date and the fetched page resolved to a valid issue path, the
emitted record's date is the MINIMUM of all collected candidate strings —
where each `datetime` attribute and each raw ISO timestamp contributes its
normalization when it parses and its raw text otherwise (`iso_date`), and
the free-text phrase contributes only when it normalizes; only when no
candidate at all was collected does the date fall back to the API value, or
failing that to free-text recovery over the visible text.
-/
theorem C1_github_date_minimum (env : GithubEnv) (url lead : String)
    (hok : malformedGithubSeg (pathSegs (urlPath url)) = false)
    (hmiss : (if env.api.isObjNoMsg then pyStrip env.api.title else "") = "" ∨
             (if env.api.isObjNoMsg then iso_date env.api.created_at else "") = "")
    (hvalid : validIssuePath (pathSegs env.page.finalPath) = true) :
    ∃ rec, fetch_github env url lead = .ok rec ∧
      (collect_all_datetimes_from_html env.page.toHtmlPage ≠ [] →
        rec.date ∈ collect_all_datetimes_from_html env.page.toHtmlPage ∧
        ∀ d ∈ collect_all_datetimes_from_html env.page.toHtmlPage,
          lexLe rec.date.data d.data = true) ∧
      (collect_all_datetimes_from_html env.page.toHtmlPage = [] →
        rec.date = (if (if env.api.isObjNoMsg then iso_date env.api.created_at
              else "") = ""
          then find_any_date_text env.page.visibleText
          else (if env.api.isObjNoMsg then iso_date env.api.created_at
              else ""))) := by
  have hdate : (github_title_created env).2
      = github_page_date env.page
          (if env.api.isObjNoMsg then iso_date env.api.created_at else "") := by
    rcases hmiss with h | h <;> simp [github_title_created, h]
  have hfetch : fetch_github env url lead = .ok
      { id := humanize_repo_display_name env.readme env.canonicalName ++ " #"
          ++ (((pathSegs (urlPath url)).get? 3).getD ""),
        url := url, lead := lead,
        date := (github_title_created env).2,
        desc := (github_title_created env).1 } := by
    unfold fetch_github
    rw [if_neg (by simp [hok])]
  refine ⟨_, hfetch, ?_, ?_⟩
  · intro hne
    show (github_title_created env).2 ∈ _ ∧ _
    rw [hdate]
    exact (github_page_date_spec env.page _ hvalid).1 hne
  · intro he
    show (github_title_created env).2 = _
    rw [hdate]
    exact (github_page_date_spec env.page _ hvalid).2 he

/-- The concrete fetch environment of the claim C1 counterexample and
witness: the API yielded nothing, the page resolved to an issue path, and
its `datetime` attributes hold one unparseable value that sorts before any
calendar date and one normalizable timestamp. -/
def c1Env : GithubEnv :=
  { api := { isObjNoMsg := false, title := "", created_at := "" },
    page := { datetimeAttrs := ["!", "2021-05-05T00:00:00Z"], rawHtml := "",
              visibleText := "", finalPath := "/owner/repo/issues/7",
              jsIssueTitle := some "crash somewhere", metaTitle := none,
              titleTag := none },
    canonicalName := "repo", readme := "" }

/--
Claim C1 counterexample: with the API yielding neither field and a valid
issue path, the only successfully normalized candidate is `2021-05-05`, yet
the emitted record's date is the raw unparseable attribute text `!` — the
code takes the minimum over `iso_date` values, which keep raw text when
normalization fails, not over the successfully normalized candidates.
-/
theorem C1_counterexample :
    c1Env.api.isObjNoMsg = false ∧
    validIssuePath (pathSegs c1Env.page.finalPath) = true ∧
    (fetch_github c1Env "https://github.com/owner/repo/issues/7"
        "Lead").toOption.map BugRecord.date = some "!" ∧
    spec_normalized_candidates c1Env.page.toHtmlPage = ["2021-05-05"] ∧
    pyMinStr (spec_normalized_candidates c1Env.page.toHtmlPage) = "2021-05-05" ∧
    ("!" : String) ≠ "2021-05-05" := by
  refine ⟨by decide, by decide, by decide, by decide, by decide, by decide⟩

/-- Witness for claim C1 at the concrete environment: candidates were
collected and the emitted date is their minimum. -/
theorem C1_github_date_minimum_witness :
    ∃ rec, fetch_github c1Env "https://github.com/owner/repo/issues/7" "Lead"
        = .ok rec ∧
      (collect_all_datetimes_from_html c1Env.page.toHtmlPage ≠ [] →
        rec.date ∈ collect_all_datetimes_from_html c1Env.page.toHtmlPage ∧
        ∀ d ∈ collect_all_datetimes_from_html c1Env.page.toHtmlPage,
          lexLe rec.date.data d.data = true) ∧
      (collect_all_datetimes_from_html c1Env.page.toHtmlPage = [] →
        rec.date = (if (if c1Env.api.isObjNoMsg then iso_date c1Env.api.created_at
              else "") = ""
          then find_any_date_text c1Env.page.visibleText
          else (if c1Env.api.isObjNoMsg then iso_date c1Env.api.created_at
              else ""))) :=
  C1_github_date_minimum c1Env "https://github.com/owner/repo/issues/7" "Lead"
    (by decide) (Or.inl (by decide)) (by decide)

/-- The pattern loop of `find_any_date_text`, characterized: a non-empty
result is the normalization of the first match of the FIRST pattern, in
priority order, whose first match normalizes — every pattern before it in
the list either has no match or a first match that parses to nothing — and
the result is empty exactly when every pattern's first match (if any) fails
to normalize. -/
theorem findAnyGo_char (ps : List RM) (t : List Char) :
    (findAnyGo ps t ≠ "" →
      ∃ earlier p later, ps = earlier ++ p :: later ∧
        (∀ q ∈ earlier, ∀ g, searchR q t = some g → try_parse_date ⟨g⟩ = "") ∧
        ∃ g, searchR p t = some g ∧
          try_parse_date ⟨g⟩ = findAnyGo ps t) ∧
    (findAnyGo ps t = "" ↔
      ∀ p ∈ ps, ∀ g, searchR p t = some g → try_parse_date ⟨g⟩ = "") := by
  induction ps with
  | nil => simp [findAnyGo]
  | cons p rest ih =>
    simp only [findAnyGo]
    cases hs : searchR p t with
    | none =>
      refine ⟨?_, ?_, ?_⟩
      · intro hne
        rcases ih.1 hne with ⟨earlier, q, later, heq, hfail, g, hg, hp⟩
        refine ⟨p :: earlier, q, later, by simp [heq], ?_, g, hg, hp⟩
        intro q2 hq2 g2 hg2
        rcases List.mem_cons.mp hq2 with rfl | hq2
        · rw [hs] at hg2
          cases hg2
        · exact hfail q2 hq2 g2 hg2
      · intro he q hq g hg
        rcases List.mem_cons.mp hq with rfl | hq
        · rw [hs] at hg
          cases hg
        · exact (ih.2.mp he) q hq g hg
      · intro hall
        exact ih.2.mpr (fun q hq g hg => hall q (List.mem_cons_of_mem p hq) g hg)
    | some g0 =>
      dsimp only
      by_cases hp0 : try_parse_date ⟨g0⟩ ≠ ""
      · rw [if_pos hp0]
        refine ⟨?_, ?_, ?_⟩
        · intro _
          exact ⟨[], p, rest, rfl, by simp, g0, hs, rfl⟩
        · intro he
          exact absurd he hp0
        · intro hall
          exact absurd (hall p (by simp) g0 hs) hp0
      · rw [if_neg hp0]
        push_neg at hp0
        refine ⟨?_, ?_, ?_⟩
        · intro hne
          rcases ih.1 hne with ⟨earlier, q, later, heq, hfail, g, hg, hpp⟩
          refine ⟨p :: earlier, q, later, by simp [heq], ?_, g, hg, hpp⟩
          intro q2 hq2 g2 hg2
          rcases List.mem_cons.mp hq2 with rfl | hq2
          · rw [hs] at hg2
            injection hg2 with hh
            rw [← hh]
            exact hp0
          · exact hfail q2 hq2 g2 hg2
        · intro he q hq g hg
          rcases List.mem_cons.mp hq with rfl | hq
          · rw [hs] at hg
            injection hg with hh
            rw [← hh]
            exact hp0
          · exact (ih.2.mp he) q hq g hg
        · intro hall
          exact ih.2.mpr (fun q hq g hg => hall q (List.mem_cons_of_mem p hq) g hg)

/--
Claim C3 (amended): `find_any_date_text` scans its input with the
prioritized pattern list, taking only each pattern's first match; it
returns the strict normalization of the first such match, in pattern
priority order, that normalizes — every pattern earlier in the list has no
match or a first match that parses to nothing — and returns the empty
string exactly when every pattern's first match fails to normalize (a
later match of the same pattern is never tried); in particular the subject
line `Posted: Wed Mar 10, 2021 3:45 pm by X` yields `2021-03-10`.
-/
theorem C3_find_any_date_text_semantics :
    (∀ t : List Char,
      (findAnyGo datePats t ≠ "" →
        ∃ earlier p later, datePats = earlier ++ p :: later ∧
          (∀ q ∈ earlier, ∀ g, searchR q t = some g →
            try_parse_date ⟨g⟩ = "") ∧
          ∃ g, searchR p t = some g ∧
            try_parse_date ⟨g⟩ = findAnyGo datePats t) ∧
      (findAnyGo datePats t = "" ↔
        ∀ p ∈ datePats, ∀ g, searchR p t = some g → try_parse_date ⟨g⟩ = "")) ∧
    find_any_date_text "Posted: Wed Mar 10, 2021 3:45 pm by X" = "2021-03-10" :=
  ⟨fun t => findAnyGo_char datePats t, by decide⟩

/-- Witness for claim C3: at the concrete subject line, the first
priority-ordered pattern whose first match normalizes produces the
returned date, all earlier patterns failing. -/
theorem C3_find_any_date_text_semantics_witness :
    ∃ earlier p later, datePats = earlier ++ p :: later ∧
      (∀ q ∈ earlier, ∀ g,
        searchR q "Posted: Wed Mar 10, 2021 3:45 pm by X".data = some g →
          try_parse_date ⟨g⟩ = "") ∧
      ∃ g, searchR p "Posted: Wed Mar 10, 2021 3:45 pm by X".data = some g ∧
        try_parse_date ⟨g⟩
          = findAnyGo datePats "Posted: Wed Mar 10, 2021 3:45 pm by X".data :=
  (C3_find_any_date_text_semantics.1
    "Posted: Wed Mar 10, 2021 3:45 pm by X".data).1 (by decide)

/--
Claim C3 counterexample: on `9999-99-99 2021-01-01` the function returns
the empty string although the candidate `2021-01-01` both matches the bare
ISO pattern and survives strict normalization — only the pattern's FIRST
match (`9999-99-99`, which parses to nothing) is ever tried.
-/
theorem C3_counterexample :
    find_any_date_text "9999-99-99 2021-01-01" = "" ∧
    "2021-01-01".data ∈ findAllR pat3 "9999-99-99 2021-01-01".data ∧
    try_parse_date "2021-01-01" = "2021-01-01" := by
  refine ⟨by decide, by decide, by decide⟩

/--
Claim C6: the Date Normalizer satisfies
`normalize("2021-03-05T10:00:00Z") == "2021-03-05"`,
`normalize("Mon, 05 Mar 2021 10:00:00 +0000") == "2021-03-05"`, and
`normalize("not a date") == ""` — strict ISO parse first, accepting a
trailing Z as UTC and keeping only the date portion, then the ordered
explicit format list.
-/
theorem C6_normalize_examples :
    try_parse_date "2021-03-05T10:00:00Z" = "2021-03-05" ∧
    try_parse_date "Mon, 05 Mar 2021 10:00:00 +0000" = "2021-03-05" ∧
    try_parse_date "not a date" = "" := by
  refine ⟨by decide, by decide, by decide⟩

/--
Claim C5: the humanizer structural fallback (no casing evidence in the
README) yields `HDF5` for `hdf5`, `Go2Hx` for `go2hx`, `Librecad` for
`librecad`, `Swc` for `swc`, and keeps the all-caps short token `SWC`.
-/
theorem C5_humanize_structural_fallback :
    humanize_repo_display_name "" "hdf5" = "HDF5" ∧
    humanize_repo_display_name "" "go2hx" = "Go2Hx" ∧
    humanize_repo_display_name "" "librecad" = "Librecad" ∧
    humanize_repo_display_name "" "swc" = "Swc" ∧
    humanize_repo_display_name "" "SWC" = "SWC" := by
  refine ⟨by decide, by decide, by decide, by decide, by decide⟩

/--
Claim C2: for every input list, the orchestrator produces exactly one
outcome per unique non-comment, non-empty line: successes plus warnings
equals the URL count, the output collection is exactly the successes (every
failure is excluded, no failure aborts the batch), and the URL list it runs
over is deduplicated, non-blank, and comment-free.
-/
theorem C2_orchestrator_counts {ε} (f : String → Except ε BugRecord)
    (lines : List String) :
    (runBatch f (read_url_list lines)).1.length
        + (runBatch f (read_url_list lines)).2
      = (read_url_list lines).length ∧
    (runBatch f (read_url_list lines)).1
      = (read_url_list lines).filterMap (fun u => (f u).toOption) ∧
    (read_url_list lines).Nodup ∧
    ∀ u ∈ read_url_list lines, u ≠ "" ∧ "#".data.isPrefixOf u.data = false := by
  refine ⟨runBatch_counts f _, runBatch_results f _, ?_, ?_⟩
  · exact (read_url_list_go_spec (lines.map pyStrip) []).1
  · intro u hu
    exact ((read_url_list_go_spec (lines.map pyStrip) []).2 u hu).2

/-- The record order is transitive. -/
theorem recLe_trans (a b c : BugRecord) (h1 : recLe a b = true)
    (h2 : recLe b c = true) : recLe a c = true :=
  lexLe_trans _ _ _ h1 h2

/-- The record order is total. -/
theorem recLe_total (a b : BugRecord) : recLe a b || recLe b a :=
  lexLe_total _ _

/--
Claim C7: the final output collection is sorted by case-insensitive
comparison of the `id` field, and applying the same sort to an
already-sorted collection leaves it unchanged (sorting is idempotent).
-/
theorem C7_output_sorted_idempotent {ε} (f : String → Except ε BugRecord)
    (urls : List String) (l : List BugRecord) :
    List.Pairwise (fun a b => recLe a b = true) (mainOutput f urls) ∧
    sortRecords (mainOutput f urls) = mainOutput f urls ∧
    (List.Pairwise (fun a b => recLe a b = true) l → sortRecords l = l) := by
  have hs : ∀ m : List BugRecord,
      List.Pairwise (fun a b => recLe a b = true) (sortRecords m) := by
    intro m
    exact List.sorted_mergeSort recLe_trans recLe_total m
  exact ⟨hs _, List.mergeSort_of_sorted (hs _),
    fun h => List.mergeSort_of_sorted h⟩

/-- Witness for claim C7: a concrete already-sorted two-record collection
is left unchanged by the sort. -/
theorem C7_output_sorted_idempotent_witness :
    List.Pairwise (fun a b => recLe a b = true)
      [⟨"Alpha #1", "u1", "L", "2021-01-01", "x"⟩,
       ⟨"beta #2", "u2", "L", "2021-01-02", "y"⟩] ∧
    sortRecords
      [⟨"Alpha #1", "u1", "L", "2021-01-01", "x"⟩,
       ⟨"beta #2", "u2", "L", "2021-01-02", "y"⟩]
      = [⟨"Alpha #1", "u1", "L", "2021-01-01", "x"⟩,
         ⟨"beta #2", "u2", "L", "2021-01-02", "y"⟩] :=
  ⟨by decide,
    (C7_output_sorted_idempotent (ε := Unit) (fun _ => .error ()) []
      [⟨"Alpha #1", "u1", "L", "2021-01-01", "x"⟩,
       ⟨"beta #2", "u2", "L", "2021-01-02", "y"⟩]).2.2 (by decide)⟩

/--
Claim C8: a mail-archive page titled
`[myproj] [Bug 42] New: crash on load` yields the identifier `Myproj #42`
and the description `crash on load`; in general, when the subject matches
the bracket pattern, the identifier is the capitalized project joined with
a hash and the number, and the description is the tail (or the full subject
when the tail is empty).
-/
theorem C8_mail_subject (page : MailPage) (url lead p n t : String)
    (h : mailSearch (pyStrip (page.title.getD "")).data = some (p, n, t)) :
    ((fetch_mailarchive page url lead).id
        = capitalize_project (pyStrip p) ++ " #" ++ pyStrip n ∧
      (fetch_mailarchive page url lead).desc
        = (if pyStrip t ≠ "" then pyStrip t else pyStrip (page.title.getD ""))) ∧
    (fetch_mailarchive
        { title := some "[myproj] [Bug 42] New: crash on load",
          metaDate := none, visibleText := "" } "u" "L").id = "Myproj #42" ∧
    (fetch_mailarchive
        { title := some "[myproj] [Bug 42] New: crash on load",
          metaDate := none, visibleText := "" } "u" "L").desc
      = "crash on load" := by
  refine ⟨⟨?_, ?_⟩, by decide, by decide⟩
  · simp [fetch_mailarchive, h]
  · simp [fetch_mailarchive, h]

/-- A successful GitHub fetch carries its input URL in the record. -/
theorem fetch_github_url_field {env : GithubEnv} {u lead : String} {r : BugRecord}
    (h : fetch_github env u lead = .ok r) : r.url = u := by
  unfold fetch_github at h
  by_cases hg : malformedGithubSeg (pathSegs (urlPath u)) = true
  · rw [if_pos hg] at h
    cases h
  · rw [if_neg hg] at h
    simp only [Except.ok.injEq] at h
    rw [← h]

/--
Claim C9: a code-host URL whose path has fewer than four segments or whose
third segment is not `issues` makes the GitHub extractor fail with the
malformed-URL error; in a batch the failure is counted as a warning and no
record with that URL reaches the output collection.
-/
theorem C9_malformed_github_url (envOf : String → GithubEnv) (lead url : String)
    (urls : List String)
    (h : malformedGithubSeg (pathSegs (urlPath url)) = true) :
    fetch_github (envOf url) url lead = .error (.malformedURL url) ∧
    (url ∈ urls →
      1 ≤ (runBatch (fun u => fetch_github (envOf u) u lead) urls).2 ∧
      ∀ r ∈ (runBatch (fun u => fetch_github (envOf u) u lead) urls).1,
        r.url ≠ url) := by
  have herr : fetch_github (envOf url) url lead = .error (.malformedURL url) := by
    unfold fetch_github
    rw [if_pos h]
  refine ⟨herr, fun hmem => ⟨runBatch_warn _ urls url _ hmem herr, ?_⟩⟩
  intro r hr hcontra
  rcases runBatch_mem _ urls r hr with ⟨u, _, hfu⟩
  have hru : r.url = u := fetch_github_url_field hfu
  rw [hcontra] at hru
  rw [← hru] at hfu
  rw [herr] at hfu
  cases hfu

/-- A minimal GitHub fetch environment for concrete instantiation. -/
def emptyGithubEnv : GithubEnv :=
  { api := { isObjNoMsg := false, title := "", created_at := "" },
    page := { datetimeAttrs := [], rawHtml := "", visibleText := "",
              finalPath := "", jsIssueTitle := none, metaTitle := none,
              titleTag := none },
    canonicalName := "repo", readme := "" }

/-- Witness for claim C9: a three-segment GitHub URL fails and is counted
as the only warning of its batch. -/
theorem C9_malformed_github_url_witness :
    malformedGithubSeg (pathSegs (urlPath "https://github.com/owner/repo")) = true ∧
    fetch_github emptyGithubEnv "https://github.com/owner/repo" "L"
      = .error (.malformedURL "https://github.com/owner/repo") ∧
    1 ≤ (runBatch (fun u => fetch_github emptyGithubEnv u "L")
          ["https://github.com/owner/repo"]).2 ∧
    ∀ r ∈ (runBatch (fun u => fetch_github emptyGithubEnv u "L")
          ["https://github.com/owner/repo"]).1,
      r.url ≠ "https://github.com/owner/repo" := by
  have h := C9_malformed_github_url (fun _ => emptyGithubEnv) "L"
    "https://github.com/owner/repo" ["https://github.com/owner/repo"] (by decide)
  exact ⟨by decide, h.1, (h.2 (by simp)).1, (h.2 (by simp)).2⟩

/-- Witness for claim C8 at the concrete subject. -/
theorem C8_mail_subject_witness :
    (fetch_mailarchive
        { title := some "[myproj] [Bug 42] New: crash on load",
          metaDate := none, visibleText := "" } "u" "L").id
      = capitalize_project (pyStrip "myproj") ++ " #" ++ pyStrip "42" ∧
    (fetch_mailarchive
        { title := some "[myproj] [Bug 42] New: crash on load",
          metaDate := none, visibleText := "" } "u" "L").desc
      = (if pyStrip "crash on load" ≠ "" then pyStrip "crash on load"
         else pyStrip ((some "[myproj] [Bug 42] New: crash on load").getD "")) :=
  (C8_mail_subject
    { title := some "[myproj] [Bug 42] New: crash on load",
      metaDate := none, visibleText := "" }
    "u" "L" "myproj" "42" "crash on load" (by decide)).1

end Bugs2Json
